import Mathlib

/-!
Verification of the HER-v2 graph execution engine
(`src/backend/src/orchestration/graph_executor.py` and its collaborators)
against its natural-language specification.

Python strings are modeled as `List Char`; Python dicts (which preserve
insertion order) as association lists with insert-or-overwrite; Python sets
of subtask ids as duplicate-free lists grown by insert-if-absent.  The
opaque reasoning-backend calls (`Agent.run` / `Agent.arun`) are modeled by
oracles: a list of per-chain-entry outcomes for fallback loops, and a
per-subtask outcome function for the scheduler.
-/

namespace HER

/-- Python strings, modeled as lists of characters. -/
abbrev Str := List Char

/-- Coerce a Lean string literal into the model. -/
def str (s : String) : Str := s.data

/-- Python `str.lower` (ASCII case folding, which covers every condition
string the engine handles). -/
def pyLower (s : Str) : Str := s.map Char.toLower

/-- The characters Python `str.strip()` removes. -/
def isPyWs (c : Char) : Bool :=
  c = ' ' || c = '\t' || c = '\n' || c = '\r' || c = '\x0b' || c = '\x0c'

/-- Python `s.strip()`: whitespace removed from both ends. -/
def stripWs (s : Str) : Str :=
  ((s.dropWhile isPyWs).reverse.dropWhile isPyWs).reverse

/-- Python `s.strip(chars)`: characters of `cs` removed from both ends. -/
def stripSet (cs : List Char) (s : Str) : Str :=
  ((s.dropWhile (· ∈ cs)).reverse.dropWhile (· ∈ cs)).reverse

/-- The quote characters stripped from a `contains` search term
(Python `strip("'\"")`). -/
def quoteChars : List Char := [Char.ofNat 39, '"']

/-- Python `pat in s` substring test. -/
def containsSub (pat : Str) : Str → Bool
  | [] => pat.isEmpty
  | c :: t => pat.isPrefixOf (c :: t) || containsSub pat t

/-- Python `s.split(sep, 1)` for the case where `sep` occurs: the text
before and after the first occurrence.  `none` when `sep` does not occur
(Python would return the one-element list `[s]`, and the engine's
subsequent `parts[1]` access raises `IndexError`). -/
def splitFirst (sep : Str) : Str → Option (Str × Str)
  | [] => if sep.isPrefixOf ([] : Str) then some ([], []) else none
  | c :: t =>
    if sep.isPrefixOf (c :: t) then some ([], (c :: t).drop sep.length)
    else match splitFirst sep t with
      | some (a, b) => some (c :: a, b)
      | none => none

/-- Recursion core of `replaceAll`; the `Nat` argument is a structural
bound on the string length (a nonempty match consumes at least one
character, so `s.length` is always enough fuel). -/
def replaceAllAux (pat repl : Str) : Nat → Str → Str
  | 0, s => s
  | _ + 1, [] => []
  | fuel + 1, c :: t =>
    if pat ≠ [] ∧ pat.isPrefixOf (c :: t) then
      repl ++ replaceAllAux pat repl fuel ((c :: t).drop pat.length)
    else
      c :: replaceAllAux pat repl fuel t

/-- Python `s.replace(pat, repl)` for nonempty `pat`: every occurrence,
scanned left to right.  (For `pat = []` this returns `s` unchanged; the
engine only replaces the nonempty literals `".result"`, `"is not empty"`
and `"is empty"`.) -/
def replaceAll (pat repl s : Str) : Str := replaceAllAux pat repl s.length s

/-- Lookup in an association list (Python `d[k]` / `k in d`). -/
def lookup? : List (Str × Str) → Str → Option Str
  | [], _ => none
  | (k, v) :: t, key => if k = key then some v else lookup? t key

/-- The keys of an association list, in insertion order. -/
def keysOf (r : List (Str × Str)) : List Str := r.map Prod.fst

/-- Value overwrite for one association-list entry (helper of `dictInsert`). -/
def overwriteEntry (k v : Str) (kv : Str × Str) : Str × Str :=
  if kv.1 = k then (k, v) else kv

/-- Python dict assignment `d[k] = v`: overwrite in place if the key is
present, otherwise append (dicts preserve insertion order). -/
def dictInsert (r : List (Str × Str)) (k v : Str) : List (Str × Str) :=
  if (lookup? r k).isSome then r.map (overwriteEntry k v)
  else r ++ [(k, v)]

/-- Python `set.add`: append if absent (the list stays duplicate-free). -/
def insertNew (l : List Str) (x : Str) : List Str :=
  if x ∈ l then l else l ++ [x]

/-- Shallow embedding of `graph_executor.evaluate_condition` (lines 50-93).
The three textual patterns are checked in the source's order on the
lowercased condition; the `contains` split runs on the original-case
condition, and a failed split (mixed-case `contains`) models the Python
`IndexError` swallowed by the surrounding `except`, which returns `True`. -/
def evaluate_condition (condition : Str) (results : List (Str × Str)) : Bool :=
  if condition.isEmpty then true
  else
    let condition_lower := pyLower condition
    if containsSub (str " contains ") condition_lower then
      match splitFirst (str " contains ") condition with
      | some (p0, p1) =>
        let subtask_ref := replaceAll (str ".result") [] (stripWs p0)
        let search_term := stripSet quoteChars (stripWs p1)
        match lookup? results subtask_ref with
        | some text => containsSub (pyLower search_term) (pyLower text)
        | none => false
      | none => true
    else if containsSub (str "is not empty") condition_lower then
      let subtask_ref :=
        replaceAll (str ".result") []
          (stripWs (replaceAll (str "is not empty") [] condition_lower))
      match lookup? results subtask_ref with
      | some text => !(stripWs text).isEmpty
      | none => false
    else if containsSub (str "is empty") condition_lower then
      let subtask_ref :=
        replaceAll (str ".result") []
          (stripWs (replaceAll (str "is empty") [] condition_lower))
      match lookup? results subtask_ref with
      | some text => (stripWs text).isEmpty
      | none => true
    else true

/-! ## Data model (`src/core/schemas.py`) -/

/-- `core.schemas.Subtask`: one unit of work in an execution plan. -/
structure Subtask where
  id : Str
  tools : List Str := []
  instructions : Str := []
  depends_on : List Str := []
  condition : Option Str := none
deriving DecidableEq

/-- `core.schemas.ExecutionPlan`: an ordered collection of subtasks. -/
structure ExecutionPlan where
  subtasks : List Subtask
deriving DecidableEq

/-- The ids of a plan's subtasks, in plan order. -/
def planIds (p : ExecutionPlan) : List Str := p.subtasks.map (fun s => s.id)

/-- Python truthiness of `subtask.condition` (`if subtask.condition:`):
present and nonempty. -/
def hasCond (s : Subtask) : Bool :=
  match s.condition with
  | some c => !c.isEmpty
  | none => false

/-- The condition text of a subtask (`""` when absent). -/
def condValue (s : Subtask) : Str :=
  match s.condition with
  | some c => c
  | none => []

/-! ## Capability resolver (`graph_executor.filter_tools_for_subtask`,
`tools/mcp/manager.py`) -/

/-- An MCP tool provider (`agno.tools.mcp.MCPTools`): `pid` models the
Python object identity `id(mcp)`, `hasFunctions` models
`hasattr(mcp, 'functions')`, and `functions` the exposed tool names. -/
structure Provider where
  pid : Nat
  hasFunctions : Bool := true
  functions : List Str := []
deriving DecidableEq

/-- `mcp.manager.MCPManager`: its `servers` dict's values in insertion
(discovery) order; the dict keys are never used by the resolver. -/
structure MCPManager where
  servers : List Provider
deriving DecidableEq

/-- A provider exposes a tool name when it has a `functions` table
containing that name. -/
def exposes (p : Provider) (name : Str) : Bool :=
  p.hasFunctions && decide (name ∈ p.functions)

/-- `MCPManager.get_server_for_tool` (manager.py lines 25-30): the first
server whose `functions` contain the tool name. -/
def get_server_for_tool (m : MCPManager) (tool_name : Str) : Option Provider :=
  m.servers.find? (fun p => exposes p tool_name)

/-- Selection loop of `MCPManager.get_tools_for_subtask` (lines 46-53):
for each requested name in order, the first server providing it, skipping
servers already selected (`id(server) not in seen`). -/
def managerNeeded (m : MCPManager) : List Str → List Nat → List Provider
  | [], _ => []
  | n :: rest, seen =>
    match get_server_for_tool m n with
    | some server =>
      if server.pid ∈ seen then managerNeeded m rest seen
      else server :: managerNeeded m rest (server.pid :: seen)
    | none => managerNeeded m rest seen

/-- `MCPManager.get_tools_for_subtask` (manager.py lines 32-55). -/
def get_tools_for_subtask (m : MCPManager) (tool_names : List Str) : List Provider :=
  if tool_names.isEmpty then m.servers
  else
    let needed := managerNeeded m tool_names []
    if needed.isEmpty then m.servers else needed

/-- Manual-filter loop of `filter_tools_for_subtask` (graph_executor.py
lines 36-45).  The Python inner loop adds `mcp` and breaks on the first
`tool_name ∈ mcp.functions` with `id(mcp) ∉ seen`; since `seen` does not
change while the inner loop runs, this is: add `mcp` iff it has functions,
its identity is unseen, and some requested name is among its functions. -/
def manualNeeded (tools : List Str) : List Provider → List Nat → List Provider
  | [], _ => []
  | mcp :: rest, seen =>
    if mcp.hasFunctions && decide (mcp.pid ∉ seen)
        && tools.any (fun t => decide (t ∈ mcp.functions)) then
      mcp :: manualNeeded tools rest (mcp.pid :: seen)
    else
      manualNeeded tools rest seen

/-- `graph_executor.filter_tools_for_subtask` (lines 23-47). -/
def filter_tools_for_subtask (subtask : Subtask) (all_tools : List Provider)
    (mcp_manager : Option MCPManager) : List Provider :=
  if subtask.tools.isEmpty then all_tools
  else
    match mcp_manager with
    | some m => get_tools_for_subtask m subtask.tools
    | none =>
      let needed := manualNeeded subtask.tools all_tools []
      if needed.isEmpty then all_tools else needed

/-! ## Task runner (`graph_executor.execute_subtask`) and synthesizer -/

/-- Dependency-result injection of `execute_subtask` (lines 108-117):
append a labeled excerpt for every dependency that has a recorded result. -/
def enhanced_instructions (subtask : Subtask) (results : List (Str × Str)) : Str :=
  if subtask.depends_on.isEmpty then subtask.instructions
  else
    let dep_results :=
      List.intercalate (str "\n")
        (subtask.depends_on.filterMap
          (fun dep => (lookup? results dep).map
            (fun t => str "[Result from " ++ dep ++ str "]: " ++ t)))
    if dep_results.isEmpty then subtask.instructions
    else subtask.instructions ++ str "\n\nPrevious results you can use:\n" ++ dep_results

/-- The fixed failure marker of `execute_subtask` (line 138). -/
def failMarker (sid : Str) : Str := str "Error: Unable to complete subtask " ++ sid

/-- Model-fallback loop of `execute_subtask` (lines 120-138).  Each entry
of `attempts` is the outcome of one `MODEL_CHAINS["agent"]` chain entry
(the opaque `Agent.arun` call): `.ok` returns its content, any exception
advances to the next entry, and an exhausted chain returns the failure
marker.  `MODEL_CHAINS["agent"]` has two entries (`core/models.py`). -/
def execute_subtask_model (subtask : Subtask) (attempts : List (Except Str Str)) : Str :=
  match attempts with
  | [] => failMarker subtask.id
  | .ok content :: _ => content
  | .error _ :: rest => execute_subtask_model subtask rest

/-- `synthesizer.synthesize` (synthesizer.py lines 9-53): each entry of
`attempts` is one `MODEL_CHAINS["synthesizer"]` entry's outcome; when all
fail, the deterministic fallback concatenates `"<id>: <text>"` per result,
joined by blank lines, in result-insertion order. -/
def synthesize_model (attempts : List (Except Str Str))
    (results : List (Str × Str)) : Str :=
  match attempts with
  | [] =>
    List.intercalate (str "\n\n")
      (results.map (fun kv => kv.1 ++ str ": " ++ kv.2))
  | .ok content :: _ => content
  | .error _ :: rest => synthesize_model rest results

/-! ## Graph scheduler (`graph_executor.get_ready_subtasks` / `execute`) -/

/-- Outcome of awaiting one `execute_subtask` coroutine: normal return, or
an exception escaping the invocation (`asyncio.gather` wraps the latter
when `return_exceptions=True`). -/
inductive Outcome where
  | ok : Str → Outcome
  | exn : Str → Outcome
deriving DecidableEq

/-- Whether an outcome is a normal return. -/
def Outcome.isOk : Outcome → Bool
  | .ok _ => true
  | .exn _ => false

/-- The task-runner oracle: the outcome of `execute_subtask` for a subtask
given the results snapshot it was dispatched with (the opaque backend makes
the real call nondeterministic; any fixed oracle is one resolution). -/
abbrev Runner := Subtask → List (Str × Str) → Outcome

/-- One recorded dispatch: the subtask handed to the task runner together
with the `results` and `completed` state at dispatch time (ghost
instrumentation; it does not influence execution). -/
structure DispatchEvent where
  sub : Subtask
  resultsSnap : List (Str × Str)
  completedSnap : List Str
deriving DecidableEq

/-- Scheduler state: `results` and `completed` are the Python dict and set
of `execute`; `skipped` and `trace` are ghost fields recording the
condition-skip transitions and the task-runner dispatches. -/
structure ExecState where
  results : List (Str × Str)
  completed : List Str
  skipped : List Str
  trace : List DispatchEvent
deriving DecidableEq

/-- The initial scheduler state of one `execute` run. -/
def initState : ExecState := ⟨[], [], [], []⟩

/-- Ids dispatched so far, in dispatch order. -/
def traceIds (st : ExecState) : List Str := st.trace.map (fun e => e.sub.id)

/-- `graph_executor.get_ready_subtasks` (lines 141-173).  The Python loop
mutates `completed` in place when it skips a subtask with a false
condition, and later subtasks in the same scan see that mutation; the
recursion threads `(completed, skipped)` through accordingly.  Returns
`(ready, completed, skipped)`. -/
def get_ready_subtasks (subtasks : List Subtask) (completed : List Str)
    (results : List (Str × Str)) (skipped : List Str) :
    List Subtask × List Str × List Str :=
  match subtasks with
  | [] => ([], completed, skipped)
  | s :: rest =>
    if s.id ∈ completed then
      get_ready_subtasks rest completed results skipped
    else if !s.depends_on.all (fun dep => decide (dep ∈ completed)) then
      get_ready_subtasks rest completed results skipped
    else if hasCond s && !evaluate_condition (condValue s) results then
      get_ready_subtasks rest (insertNew completed s.id) results
        (insertNew skipped s.id)
    else
      let r := get_ready_subtasks rest completed results skipped
      (s :: r.1, r.2)

/-- Single-member dispatch (execute, lines 216-222).  An exception from the
lone `await execute_subtask(...)` is not caught there and propagates out of
`execute` (modeled as `.error`). -/
def dispatchSingle (runner : Runner) (st : ExecState) (s : Subtask) :
    Except Str ExecState :=
  match runner s st.results with
  | .exn m => .error m
  | .ok text =>
    .ok { st with
          results := dictInsert st.results s.id text
          completed := insertNew st.completed s.id
          trace := st.trace ++ [⟨s, st.results, st.completed⟩] }

/-- Multi-member dispatch (execute, lines 223-237): all frontier members
run against the same `results` snapshot; `asyncio.gather(...,
return_exceptions=True)` converts an escaping exception into the recorded
text `"Error: <message>"`; every member is then marked completed, in
frontier order. -/
def dispatchParallel (runner : Runner) (st : ExecState) (ready : List Subtask) :
    ExecState :=
  let snap := st.results
  let folded := ready.foldl
    (fun (acc : List (Str × Str) × List Str) s =>
      let text := match runner s snap with
        | .ok t => t
        | .exn m => str "Error: " ++ m
      (dictInsert acc.1 s.id text, insertNew acc.2 s.id))
    (st.results, st.completed)
  { st with
    results := folded.1
    completed := folded.2
    trace := st.trace ++ ready.map (fun s => ⟨s, snap, st.completed⟩) }

/-- The `while len(completed) < len(plan.subtasks)` loop of
`graph_executor.execute` (lines 204-237).  `none` models running out of
fuel (the default fuel is proved sufficient below); `some (.error m)`
models an exception propagating out of `execute`; `some (.ok st)` a normal
end of the loop (full completion or the empty-frontier break). -/
def executeLoop (plan : ExecutionPlan) (runner : Runner) :
    Nat → ExecState → Option (Except Str ExecState)
  | 0, _ => none
  | fuel + 1, st =>
    if st.completed.length < plan.subtasks.length then
      let g := get_ready_subtasks plan.subtasks st.completed st.results st.skipped
      let st2 : ExecState := { st with completed := g.2.1, skipped := g.2.2 }
      match g.1 with
      | [] => some (.ok st2)
      | [s] =>
        match dispatchSingle runner st2 s with
        | .error m => some (.error m)
        | .ok st3 => executeLoop plan runner fuel st3
      | _ => executeLoop plan runner fuel (dispatchParallel runner st2 g.1)
    else some (.ok st)

instance {ε α : Type} [DecidableEq ε] [DecidableEq α] : DecidableEq (Except ε α) :=
  fun a b =>
    match a, b with
    | .ok x, .ok y => decidable_of_iff (x = y) (by simp)
    | .error x, .error y => decidable_of_iff (x = y) (by simp)
    | .ok _, .error _ => .isFalse (fun h => Except.noConfusion h)
    | .error _, .ok _ => .isFalse (fun h => Except.noConfusion h)

/-- Fuel that always suffices: each loop iteration with a nonempty frontier
strictly grows `completed`, which never exceeds the subtask count. -/
def defaultFuel (plan : ExecutionPlan) : Nat := plan.subtasks.length + 1

/-- The scheduling part of `graph_executor.execute`: run the loop from the
empty state. -/
def runPlan (plan : ExecutionPlan) (runner : Runner) :
    Option (Except Str ExecState) :=
  executeLoop plan runner (defaultFuel plan) initState

/-- Output selection of `execute` (lines 239-247): zero results yield the
fixed sentinel, one result is returned verbatim, several go to the
synthesizer (an oracle here). -/
def finalOutput (synth : List (Str × Str) → Str) (st : ExecState) : Str :=
  if st.results.length = 0 then str "No subtasks were executed."
  else if st.results.length = 1 then (st.results.map Prod.snd).headD []
  else synth st.results

/-- `graph_executor.execute` (lines 176-247) end to end. -/
def executeG (plan : ExecutionPlan) (runner : Runner)
    (synth : List (Str × Str) → Str) : Option (Except Str Str) :=
  (runPlan plan runner).map (fun e => e.map (finalOutput synth))

/-! ## Parallel-dispatch text and the scheduler invariants -/

/-- The text recorded for one member of a parallel frontier (the zip loop
of execute, lines 232-237). -/
def parText (runner : Runner) (snap : List (Str × Str)) (s : Subtask) : Str :=
  match runner s snap with
  | .ok t => t
  | .exn m => str "Error: " ++ m

/-- Facts maintained by every iteration of the scheduling loop.  The ghost
fields (`skipped`, `trace`) let the invariant speak about condition skips
and task-runner dispatches. -/
structure Inv (p : ExecutionPlan) (st : ExecState) : Prop where
  completed_nodup : st.completed.Nodup
  completed_sub : ∀ x ∈ st.completed, x ∈ planIds p
  trace_sub_completed : ∀ x ∈ traceIds st, x ∈ st.completed
  skipped_sub_completed : ∀ x ∈ st.skipped, x ∈ st.completed
  results_sub_trace : ∀ k ∈ keysOf st.results, k ∈ traceIds st
  skipped_trace_disjoint : ∀ x ∈ st.skipped, x ∉ traceIds st
  trace_nodup : (traceIds st).Nodup
  trace_deps : ∀ e ∈ st.trace, ∀ d ∈ e.sub.depends_on, d ∈ e.completedSnap

/-- The completed-set part of the invariant, sufficient for termination
(no duplicate-id hypothesis needed). -/
structure InvC (p : ExecutionPlan) (st : ExecState) : Prop where
  nodup : st.completed.Nodup
  sub : ∀ x ∈ st.completed, x ∈ planIds p

/-! ## Concrete fixtures used by witnesses and counterexamples -/

/-- A subtask with no dependencies and no condition. -/
def subND (i : String) : Subtask := ⟨str i, [], [], [], none⟩

/-- A subtask with dependencies and no condition. -/
def subD (i : String) (deps : List String) : Subtask :=
  ⟨str i, [], [], deps.map str, none⟩

/-- A subtask with a condition and no dependencies. -/
def subC (i : String) (cond : String) : Subtask :=
  ⟨str i, [], [], [], some (str cond)⟩

/-- A subtask with dependencies and a condition. -/
def subDC (i : String) (deps : List String) (cond : String) : Subtask :=
  ⟨str i, [], [], deps.map str, some (str cond)⟩

/-- A task runner whose every invocation succeeds with a fixed text. -/
def okRunner : Runner := fun _ _ => .ok (str "done")

/-- The diamond graph of the spec's test property: `A→B`, `A→C`, `B,C→D`. -/
def diamondPlan : ExecutionPlan :=
  ⟨[subND "a", subD "b" ["a"], subD "c" ["a"], subD "d" ["b", "c"]]⟩

/-- The final state of a normally terminating run, when there is one. -/
def finalStateOf? (plan : ExecutionPlan) (runner : Runner) : Option ExecState :=
  match runPlan plan runner with
  | some (.ok st) => some st
  | _ => none

/-- C1 counterexample plan: `s` depends on `d`, and `d` (later in the plan
order) is skipped by a false condition during the same frontier scan that
already passed over `s`. -/
def planC1cex : ExecutionPlan := ⟨[subD "s" ["d"], subC "d" "x contains y"]⟩

/-- C9 counterexample plan: `d` is skipped (false condition), then `s`,
which depends on `d`, is dispatched with no result recorded for `d`. -/
def planC9cex : ExecutionPlan := ⟨[subC "d" "x contains y", subD "s" ["d"]]⟩

/-- The rain example of the spec: `A` succeeds with text not containing
"rain"; `X` is conditioned on `A contains rain`. -/
def rainPlan : ExecutionPlan :=
  ⟨[subND "a", subDC "x" ["a"] "a contains rain"]⟩

/-- Runner for the rain example: `a` answers a sunny forecast. -/
def rainRunner : Runner := fun s _ =>
  if s.id = str "a" then .ok (str "clear and sunny") else .ok (str "done")

/-! ## Claim-level hypotheses -/

/-- Acyclicity of the `depends_on` relation, expressed by a ranking
function; for the finite graphs at hand this is the standard equivalent of
the absence of dependency cycles (a topological height). -/
def Acyclic (p : ExecutionPlan) : Prop :=
  ∃ rank : Str → Nat, ∀ s ∈ p.subtasks, ∀ d ∈ s.depends_on, rank d < rank s.id

/-- The data-model invariant that `depends_on` only references ids present
in the same plan (spec section 3). -/
def ValidRefs (p : ExecutionPlan) : Prop :=
  ∀ s ∈ p.subtasks, ∀ d ∈ s.depends_on, d ∈ planIds p

/-- No subtask carries a (truthy) condition. -/
def CondFree (p : ExecutionPlan) : Prop := ∀ s ∈ p.subtasks, hasCond s = false

/-- The data-model invariant that subtask ids are unique within a plan
(spec section 3: "id (unique string...)"). -/
def UniqueIds (p : ExecutionPlan) : Prop := (planIds p).Nodup

/-- The task runner returns normally on every invocation (its own
fallback chain swallows backend exceptions, per `execute_subtask`). -/
def RunnerOk (runner : Runner) : Prop :=
  ∀ s res, (runner s res).isOk = true

/-! ## States reached by the concrete runs -/

/-- The state in which the diamond run ends (checked by `decide` below). -/
def diamondFinal : ExecState :=
  ⟨[(str "a", str "done"), (str "b", str "done"),
    (str "c", str "done"), (str "d", str "done")],
   [str "a", str "b", str "c", str "d"],
   [],
   [⟨subND "a", [], []⟩,
    ⟨subD "b" ["a"], [(str "a", str "done")], [str "a"]⟩,
    ⟨subD "c" ["a"], [(str "a", str "done")], [str "a"]⟩,
    ⟨subD "d" ["b", "c"],
      [(str "a", str "done"), (str "b", str "done"), (str "c", str "done")],
      [str "a", str "b", str "c"]⟩]⟩

/-- The state in which the rain-example run ends. -/
def rainFinal : ExecState :=
  ⟨[(str "a", str "clear and sunny")],
   [str "a", str "x"],
   [str "x"],
   [⟨subND "a", [], []⟩]⟩

/-- A runner whose invocation for `b` raises. -/
def boomRunner : Runner := fun s _ =>
  if s.id = str "b" then .exn (str "boom") else .ok (str "done")

/-! ## Fixtures for the fallback-exhaustion run -/

/-- Two independent subtasks; `b`'s model chain will be exhausted. -/
def failPlan : ExecutionPlan := ⟨[subND "a", subND "b"]⟩

/-- Runner in which `b` returns what `execute_subtask` returns when both
chain entries fail (the failure marker), while `a` succeeds normally. -/
def failRunner : Runner := fun s _ =>
  if s.id = str "b" then
    .ok (execute_subtask_model (subND "b")
      [.error (str "quota exceeded"), .error (str "connection refused")])
  else .ok (str "fine")

/-! ## Spec-side resolver definitions and providers -/

/-- First-occurrence deduplication by provider identity (`id(mcp)`),
threaded through a seen-set — the claim's "deduplicated by provider
identity". -/
def dedupByPid : List Provider → List Nat → List Provider
  | [], _ => []
  | pv :: t, seen =>
    if pv.pid ∈ seen then dedupByPid t seen
    else pv :: dedupByPid t (pv.pid :: seen)

/-- Written from the claim's words: exactly the providers exposing at
least one of the requested tool names, in discovery order, deduplicated by
provider identity. -/
def claimResolve (tools : List Str) (providers : List Provider) : List Provider :=
  dedupByPid (providers.filter (fun pv => tools.any (fun t => exposes pv t))) []

/-- Providers and manager for the C7 counterexample: two servers both
exposing the tool `t1`. -/
def srvA : Provider := ⟨1, true, [str "t1"]⟩

/-- Second provider exposing the same tool. -/
def srvB : Provider := ⟨2, true, [str "t1"]⟩

/-- Manager holding both servers, in discovery order. -/
def twoServerMgr : MCPManager := ⟨[srvA, srvB]⟩

/-- A subtask requiring `t1`. -/
def toolSub : Subtask := ⟨str "s", [str "t1"], [], [], none⟩

/-! ## Embedding of the orchestration facade (`engine/main_loop.py`) -/

/-- The router's path decision. -/
inductive RoutePath where
  | direct
  | agent
deriving DecidableEq

/-- `core.schemas.RouteDecision`. -/
structure RouteDecision where
  path : RoutePath
  reasoning : Str
deriving DecidableEq

/-- `router.route` (router.py lines 49-75): each `attempts` entry is one
`MODEL_CHAINS["router"]` entry's outcome; every exception is swallowed and
the exhausted chain defaults to the direct path. -/
def route_model : List (Except Str RouteDecision) → RouteDecision
  | [] => ⟨.direct, str "Fallback due to model errors"⟩
  | .ok d :: _ => d
  | .error _ :: rest => route_model rest

/-- The planner's hard-coded fallback plan (planner.py lines 102-110). -/
def fallbackPlan : ExecutionPlan :=
  ⟨[⟨str "fallback", [],
     str "Acknowledge the request and explain that you"
       ++ [Char.ofNat 39]
       ++ str "re having technical difficulties processing it.",
     [], none⟩]⟩

/-- `planner.plan` (planner.py lines 77-110): fully fault-contained, with
the fallback plan on chain exhaustion. -/
def plan_model : List (Except Str ExecutionPlan) → ExecutionPlan
  | [] => fallbackPlan
  | .ok pl :: _ => pl
  | .error _ :: rest => plan_model rest

/-- Pydantic attribute access `execution_plan.mode` (main_loop.py line
126).  `core.schemas.ExecutionPlan` declares only `subtasks` — its own
docstring says "No fixed mode" — so the access raises `AttributeError`
for every instance (quotes of the Python message elided). -/
def pymode (_p : ExecutionPlan) : Except Str Str :=
  .error (str "AttributeError: ExecutionPlan object has no attribute mode")

/-- The direct-path apology prefix (main_loop.py line 95). -/
def apology_direct : Str :=
  str "I apologize, but I" ++ [Char.ofNat 39]
    ++ str "m having trouble responding right now. Error: "

/-- The execute-path apology prefix (main_loop.py line 158). -/
def apology_execute : Str :=
  str "I encountered an error while processing your request: "

/-- Shallow embedding of `engine.main_loop.orchestrate` (lines 14-171):
route, then either the guarded direct response, or plan → print of
`execution_plan.mode` (unguarded) → guarded execute.  Session bookkeeping
and event emission are elided: `session` defaults to `None` and `emit`
swallows every callback error.  `directAttempt` is the direct-path
`Agent.run` call, `executeResult` the awaited `execute(...)`. -/
def orchestrate_model (routerAttempts : List (Except Str RouteDecision))
    (directAttempt : Except Str Str)
    (plannerAttempts : List (Except Str ExecutionPlan))
    (executeResult : Except Str Str) : Except Str Str :=
  let decision := route_model routerAttempts
  match decision.path with
  | .direct =>
    match directAttempt with
    | .ok response => .ok response
    | .error e => .ok (apology_direct ++ e)
  | .agent =>
    let execution_plan := plan_model plannerAttempts
    match pymode execution_plan with
    | .error e => .error e
    | .ok _ =>
      match executeResult with
      | .ok result => .ok result
      | .error e => .ok (apology_execute ++ e)

/-! ## Evaluation checks of the embedding -/

example : evaluate_condition (str "a contains rain") [(str "a", str "light rain today")] = true := by decide

example : evaluate_condition (str "a contains rain") [(str "a", str "sunny")] = false := by decide

example : evaluate_condition (str "a contains rain") [] = false := by decide

example : evaluate_condition (str "a is not empty") [(str "a", str " ")] = false := by decide

example : evaluate_condition (str "a is not empty") [(str "a", str "x")] = true := by decide

example : evaluate_condition (str "A is not empty") [(str "A", str "x")] = false := by decide

example : evaluate_condition (str "a.result is empty") [] = true := by decide

example : evaluate_condition (str "a is empty") [(str "a", str "x")] = false := by decide

example : evaluate_condition (str "whatever else") [] = true := by decide

example : evaluate_condition (str "A CONTAINS x") [(str "A", str "y")] = true := by decide

example : evaluate_condition [] [] = true := by decide

/-! ## Basic lemmas about the container model -/

theorem mem_insertNew {l : List Str} {x y : Str} :
    y ∈ insertNew l x ↔ y ∈ l ∨ y = x := by
  unfold insertNew
  split
  · constructor
    · exact fun h => Or.inl h
    · rintro (h | rfl) <;> assumption
  · simp [or_comm]

theorem self_mem_insertNew {l : List Str} {x : Str} : x ∈ insertNew l x :=
  mem_insertNew.mpr (Or.inr rfl)

theorem prefix_insertNew {l : List Str} {x : Str} : l <+: insertNew l x := by
  unfold insertNew
  split
  · exact List.prefix_rfl
  · exact List.prefix_append l [x]

theorem nodup_insertNew {l : List Str} {x : Str} (h : l.Nodup) :
    (insertNew l x).Nodup := by
  unfold insertNew
  split
  · exact h
  · simp_all [List.nodup_append]

theorem length_insertNew_ge {l : List Str} {x : Str} :
    l.length ≤ (insertNew l x).length := by
  unfold insertNew
  split
  · exact le_refl _
  · simp

theorem mem_keysOf_iff_lookup {r : List (Str × Str)} {k : Str} :
    k ∈ keysOf r ↔ (lookup? r k).isSome := by
  induction r with
  | nil => simp [keysOf, lookup?]
  | cons kv t ih =>
    obtain ⟨k', v⟩ := kv
    simp only [keysOf, List.map_cons, List.mem_cons, lookup?]
    by_cases h : k' = k
    · subst h
      simp
    · have hne : ¬(k = k') := fun e => h e.symm
      simp only [keysOf] at ih
      simp [hne, h, ih]

theorem lookup?_eq_none {r : List (Str × Str)} {k : Str} :
    lookup? r k = none ↔ k ∉ keysOf r := by
  rw [mem_keysOf_iff_lookup]
  cases lookup? r k <;> simp

theorem lookup?_overwrite_self {r : List (Str × Str)} {k v : Str} :
    lookup? (r.map (overwriteEntry k v)) k
      = if (lookup? r k).isSome then some v else none := by
  induction r with
  | nil => simp [lookup?]
  | cons kv t ih =>
    obtain ⟨k', v'⟩ := kv
    rw [List.map_cons]
    by_cases h : k' = k
    · subst h
      have hhead : overwriteEntry k' v (k', v') = (k', v) := by
        simp [overwriteEntry]
      rw [hhead]
      simp [lookup?]
    · have hhead : overwriteEntry k v (k', v') = (k', v') := by
        simp [overwriteEntry, h]
      rw [hhead]
      simp only [lookup?, if_neg h]
      exact ih

theorem lookup?_overwrite_ne {r : List (Str × Str)} {k v k' : Str} (h : k' ≠ k) :
    lookup? (r.map (overwriteEntry k v)) k' = lookup? r k' := by
  induction r with
  | nil => simp [lookup?]
  | cons kv t ih =>
    obtain ⟨k₀, v₀⟩ := kv
    rw [List.map_cons]
    by_cases hk : k₀ = k
    · subst hk
      have hhead : overwriteEntry k₀ v (k₀, v₀) = (k₀, v) := by
        simp [overwriteEntry]
      rw [hhead]
      have : k₀ ≠ k' := Ne.symm h
      simp only [lookup?, if_neg this]
      exact ih
    · have hhead : overwriteEntry k v (k₀, v₀) = (k₀, v₀) := by
        simp [overwriteEntry, hk]
      rw [hhead]
      by_cases hk' : k₀ = k'
      · simp [lookup?, hk']
      · simp only [lookup?, if_neg hk']
        exact ih

theorem lookup?_append {r₁ r₂ : List (Str × Str)} {k : Str} :
    lookup? (r₁ ++ r₂) k
      = match lookup? r₁ k with
        | some v => some v
        | none => lookup? r₂ k := by
  induction r₁ with
  | nil => simp [lookup?]
  | cons kv t ih =>
    obtain ⟨k', v⟩ := kv
    by_cases h : k' = k <;> simp [lookup?, h, ih]

theorem lookup?_dictInsert_self {r : List (Str × Str)} {k v : Str} :
    lookup? (dictInsert r k v) k = some v := by
  unfold dictInsert
  split
  · rename_i h
    rw [lookup?_overwrite_self, if_pos h]
  · rename_i h
    rw [lookup?_append]
    cases he : lookup? r k with
    | some v' => rw [he] at h; simp at h
    | none => simp [lookup?]

theorem lookup?_dictInsert_ne {r : List (Str × Str)} {k v k' : Str} (h : k' ≠ k) :
    lookup? (dictInsert r k v) k' = lookup? r k' := by
  unfold dictInsert
  split
  · exact lookup?_overwrite_ne h
  · rw [lookup?_append]
    cases he : lookup? r k' with
    | some v' => rfl
    | none => simp [lookup?, Ne.symm h]

theorem keysOf_dictInsert {r : List (Str × Str)} {k v : Str} :
    keysOf (dictInsert r k v)
      = if k ∈ keysOf r then keysOf r else keysOf r ++ [k] := by
  unfold dictInsert
  by_cases h : (lookup? r k).isSome
  · rw [if_pos h, if_pos (mem_keysOf_iff_lookup.mpr h)]
    unfold keysOf
    rw [List.map_map]
    apply List.map_congr_left
    intro kv _
    by_cases hk : kv.1 = k <;> simp [overwriteEntry, hk]
  · rw [if_neg h, if_neg (fun hm => h (mem_keysOf_iff_lookup.mp hm))]
    simp [keysOf]

theorem length_lt_of_prefix_mem {l l' : List Str} {x : Str}
    (hp : l <+: l') (hx : x ∈ l') (hnx : x ∉ l) : l.length < l'.length := by
  obtain ⟨t, rfl⟩ := hp
  rcases List.mem_append.mp hx with h | h
  · exact absurd h hnx
  · have : t ≠ [] := by rintro rfl; simp at h
    have : 0 < t.length := List.length_pos.mpr this
    simp
    omega

/-! ## Structural lemmas about the frontier computation -/

theorem grs_cons_mem {s : Subtask} {rest : List Subtask} {c : List Str}
    {res : List (Str × Str)} {sk : List Str} (h1 : s.id ∈ c) :
    get_ready_subtasks (s :: rest) c res sk
      = get_ready_subtasks rest c res sk := by
  simp [get_ready_subtasks, h1]

theorem grs_cons_unmet {s : Subtask} {rest : List Subtask} {c : List Str}
    {res : List (Str × Str)} {sk : List Str} (h1 : s.id ∉ c)
    (h2 : (s.depends_on.all fun dep => decide (dep ∈ c)) = false) :
    get_ready_subtasks (s :: rest) c res sk
      = get_ready_subtasks rest c res sk := by
  simp [get_ready_subtasks, h1, h2]

theorem grs_cons_skip {s : Subtask} {rest : List Subtask} {c : List Str}
    {res : List (Str × Str)} {sk : List Str} (h1 : s.id ∉ c)
    (h2 : (s.depends_on.all fun dep => decide (dep ∈ c)) = true)
    (h3 : (hasCond s && !evaluate_condition (condValue s) res) = true) :
    get_ready_subtasks (s :: rest) c res sk
      = get_ready_subtasks rest (insertNew c s.id) res (insertNew sk s.id) := by
  simp [get_ready_subtasks, h1, h2, h3]

theorem grs_cons_ready {s : Subtask} {rest : List Subtask} {c : List Str}
    {res : List (Str × Str)} {sk : List Str} (h1 : s.id ∉ c)
    (h2 : (s.depends_on.all fun dep => decide (dep ∈ c)) = true)
    (h3 : (hasCond s && !evaluate_condition (condValue s) res) = false) :
    get_ready_subtasks (s :: rest) c res sk
      = (s :: (get_ready_subtasks rest c res sk).1,
         (get_ready_subtasks rest c res sk).2) := by
  simp [get_ready_subtasks, h1, h2, h3]

theorem grs_completed_grows (l : List Subtask) (c : List Str)
    (res : List (Str × Str)) (sk : List Str) :
    c <+: (get_ready_subtasks l c res sk).2.1 := by
  induction l generalizing c sk with
  | nil => exact List.prefix_rfl
  | cons s rest ih =>
    simp only [get_ready_subtasks]
    split_ifs with h1 h2 h3
    · exact ih c sk
    · exact ih c sk
    · exact List.IsPrefix.trans prefix_insertNew (ih _ _)
    · exact ih c sk

theorem grs_skipped_grows (l : List Subtask) (c : List Str)
    (res : List (Str × Str)) (sk : List Str) :
    sk <+: (get_ready_subtasks l c res sk).2.2 := by
  induction l generalizing c sk with
  | nil => exact List.prefix_rfl
  | cons s rest ih =>
    simp only [get_ready_subtasks]
    split_ifs with h1 h2 h3
    · exact ih c sk
    · exact ih c sk
    · exact List.IsPrefix.trans prefix_insertNew (ih _ _)
    · exact ih c sk

theorem grs_ready_sublist (l : List Subtask) (c : List Str)
    (res : List (Str × Str)) (sk : List Str) :
    List.Sublist (get_ready_subtasks l c res sk).1 l := by
  induction l generalizing c sk with
  | nil => exact List.Sublist.refl _
  | cons s rest ih =>
    simp only [get_ready_subtasks]
    split_ifs with h1 h2 h3
    · exact List.Sublist.cons s (ih c sk)
    · exact List.Sublist.cons s (ih c sk)
    · exact List.Sublist.cons s (ih _ _)
    · exact List.Sublist.cons₂ s (ih c sk)

theorem grs_ready_not_mem (l : List Subtask) (c : List Str)
    (res : List (Str × Str)) (sk : List Str) :
    ∀ u ∈ (get_ready_subtasks l c res sk).1, u.id ∉ c := by
  induction l generalizing c sk with
  | nil => intro u hu; simp [get_ready_subtasks] at hu
  | cons s rest ih =>
    simp only [get_ready_subtasks]
    split_ifs with h1 h2 h3
    · exact ih c sk
    · exact ih c sk
    · intro u hu hc
      exact ih _ _ u hu (mem_insertNew.mpr (Or.inl hc))
    · intro u hu
      rcases List.mem_cons.mp hu with rfl | hu'
      · exact h1
      · exact ih c sk u hu'

theorem grs_ready_deps (l : List Subtask) (c : List Str)
    (res : List (Str × Str)) (sk : List Str) :
    ∀ u ∈ (get_ready_subtasks l c res sk).1, ∀ d ∈ u.depends_on,
      d ∈ (get_ready_subtasks l c res sk).2.1 := by
  induction l generalizing c sk with
  | nil => intro u hu; simp [get_ready_subtasks] at hu
  | cons s rest ih =>
    simp only [get_ready_subtasks]
    split_ifs with h1 h2 h3
    · exact ih c sk
    · exact ih c sk
    · exact ih _ _
    · intro u hu d hd
      rcases List.mem_cons.mp hu with rfl | hu'
      · have hall : ∀ x ∈ u.depends_on, x ∈ c := by
          rw [Bool.not_eq_true', Bool.not_eq_false] at h2
          intro x hx
          have := List.all_eq_true.mp h2 x hx
          exact of_decide_eq_true this
        exact (grs_completed_grows rest c res sk).subset (hall d hd)
      · exact ih c sk u hu' d hd

theorem grs_completed_mem (l : List Subtask) (c : List Str)
    (res : List (Str × Str)) (sk : List Str) :
    ∀ x ∈ (get_ready_subtasks l c res sk).2.1,
      x ∈ c ∨ ((∃ u ∈ l, u.id = x) ∧ x ∈ (get_ready_subtasks l c res sk).2.2) := by
  induction l generalizing c sk with
  | nil => intro x hx; exact Or.inl hx
  | cons s rest ih =>
    simp only [get_ready_subtasks]
    split_ifs with h1 h2 h3
    · intro x hx
      rcases ih c sk x hx with h | ⟨⟨u, hu, he⟩, hsk⟩
      · exact Or.inl h
      · exact Or.inr ⟨⟨u, List.mem_cons_of_mem s hu, he⟩, hsk⟩
    · intro x hx
      rcases ih c sk x hx with h | ⟨⟨u, hu, he⟩, hsk⟩
      · exact Or.inl h
      · exact Or.inr ⟨⟨u, List.mem_cons_of_mem s hu, he⟩, hsk⟩
    · intro x hx
      rcases ih (insertNew c s.id) (insertNew sk s.id) x hx with h | ⟨⟨u, hu, he⟩, hsk⟩
      · rcases mem_insertNew.mp h with h' | rfl
        · exact Or.inl h'
        · refine Or.inr ⟨⟨s, List.mem_cons_self s rest, rfl⟩, ?_⟩
          exact (grs_skipped_grows rest _ res _).subset self_mem_insertNew
      · exact Or.inr ⟨⟨u, List.mem_cons_of_mem s hu, he⟩, hsk⟩
    · intro x hx
      rcases ih c sk x hx with h | ⟨⟨u, hu, he⟩, hsk⟩
      · exact Or.inl h
      · exact Or.inr ⟨⟨u, List.mem_cons_of_mem s hu, he⟩, hsk⟩

theorem grs_skipped_mem (l : List Subtask) (c : List Str)
    (res : List (Str × Str)) (sk : List Str) :
    ∀ x ∈ (get_ready_subtasks l c res sk).2.2,
      x ∈ sk ∨ ((∃ u ∈ l, u.id = x) ∧ x ∉ c) := by
  induction l generalizing c sk with
  | nil => intro x hx; exact Or.inl hx
  | cons s rest ih =>
    simp only [get_ready_subtasks]
    split_ifs with h1 h2 h3
    · intro x hx
      rcases ih c sk x hx with h | ⟨⟨u, hu, he⟩, hc⟩
      · exact Or.inl h
      · exact Or.inr ⟨⟨u, List.mem_cons_of_mem s hu, he⟩, hc⟩
    · intro x hx
      rcases ih c sk x hx with h | ⟨⟨u, hu, he⟩, hc⟩
      · exact Or.inl h
      · exact Or.inr ⟨⟨u, List.mem_cons_of_mem s hu, he⟩, hc⟩
    · intro x hx
      rcases ih (insertNew c s.id) (insertNew sk s.id) x hx with h | ⟨⟨u, hu, he⟩, hc⟩
      · rcases mem_insertNew.mp h with h' | rfl
        · exact Or.inl h'
        · exact Or.inr ⟨⟨s, List.mem_cons_self s rest, rfl⟩, h1⟩
      · refine Or.inr ⟨⟨u, List.mem_cons_of_mem s hu, he⟩, fun hxc => ?_⟩
        exact hc (mem_insertNew.mpr (Or.inl hxc))
    · intro x hx
      rcases ih c sk x hx with h | ⟨⟨u, hu, he⟩, hc⟩
      · exact Or.inl h
      · exact Or.inr ⟨⟨u, List.mem_cons_of_mem s hu, he⟩, hc⟩

theorem grs_skipped_in_completed (l : List Subtask) (c : List Str)
    (res : List (Str × Str)) (sk : List Str) (hsk : ∀ x ∈ sk, x ∈ c) :
    ∀ x ∈ (get_ready_subtasks l c res sk).2.2,
      x ∈ (get_ready_subtasks l c res sk).2.1 := by
  induction l generalizing c sk with
  | nil => exact hsk
  | cons s rest ih =>
    simp only [get_ready_subtasks]
    split_ifs with h1 h2 h3
    · exact ih c sk hsk
    · exact ih c sk hsk
    · refine ih _ _ fun x hx => ?_
      rcases mem_insertNew.mp hx with h | rfl
      · exact mem_insertNew.mpr (Or.inl (hsk x h))
      · exact self_mem_insertNew
    · exact ih c sk hsk

theorem grs_completed_nodup (l : List Subtask) (c : List Str)
    (res : List (Str × Str)) (sk : List Str) (hc : c.Nodup) :
    (get_ready_subtasks l c res sk).2.1.Nodup := by
  induction l generalizing c sk with
  | nil => exact hc
  | cons s rest ih =>
    simp only [get_ready_subtasks]
    split_ifs with h1 h2 h3
    · exact ih c sk hc
    · exact ih c sk hc
    · exact ih _ _ (nodup_insertNew hc)
    · exact ih c sk hc

theorem grs_condfree (l : List Subtask) (c : List Str)
    (res : List (Str × Str)) (sk : List Str)
    (hcf : ∀ u ∈ l, hasCond u = false) :
    (get_ready_subtasks l c res sk).2.1 = c
      ∧ (get_ready_subtasks l c res sk).2.2 = sk := by
  induction l generalizing c sk with
  | nil => exact ⟨rfl, rfl⟩
  | cons s rest ih =>
    have hrest : ∀ u ∈ rest, hasCond u = false :=
      fun u hu => hcf u (List.mem_cons_of_mem s hu)
    simp only [get_ready_subtasks]
    split_ifs with h1 h2 h3
    · exact ih c sk hrest
    · exact ih c sk hrest
    · exfalso
      have := hcf s (List.mem_cons_self s rest)
      rw [this] at h3
      simp at h3
    · exact ih c sk hrest

theorem grs_break (l : List Subtask) (c : List Str)
    (res : List (Str × Str)) (sk : List Str)
    (hcf : ∀ u ∈ l, hasCond u = false)
    (hempty : (get_ready_subtasks l c res sk).1 = []) :
    ∀ u ∈ l, u.id ∈ c ∨ ∃ d ∈ u.depends_on, d ∉ c := by
  induction l generalizing c sk with
  | nil => intro u hu; simp at hu
  | cons s rest ih =>
    have hrest : ∀ u ∈ rest, hasCond u = false :=
      fun u hu => hcf u (List.mem_cons_of_mem s hu)
    have hnocond : (hasCond s && !evaluate_condition (condValue s) res) = false := by
      rw [hcf s (List.mem_cons_self s rest)]
      rfl
    intro u hu
    by_cases h1 : s.id ∈ c
    · rw [grs_cons_mem h1] at hempty
      rcases List.mem_cons.mp hu with rfl | hu'
      · exact Or.inl h1
      · exact ih c sk hrest hempty u hu'
    · by_cases h2 : (s.depends_on.all fun dep => decide (dep ∈ c)) = true
      · rw [grs_cons_ready h1 h2 hnocond] at hempty
        simp at hempty
      · rw [grs_cons_unmet h1 (Bool.not_eq_true _ ▸ Bool.of_not_eq_true h2)] at hempty
        rcases List.mem_cons.mp hu with rfl | hu'
        · rw [List.all_eq_true] at h2
          push_neg at h2
          obtain ⟨d, hd, hdec⟩ := h2
          exact Or.inr ⟨d, hd, fun hmem => hdec (decide_eq_true hmem)⟩
        · exact ih c sk hrest hempty u hu'

theorem grs_ready_skipped_avoid (l : List Subtask) (c : List Str)
    (res : List (Str × Str)) (sk : List Str)
    (hsk : ∀ x ∈ sk, x ∈ c) (hnd : (l.map Subtask.id).Nodup) :
    ∀ u ∈ (get_ready_subtasks l c res sk).1,
      u.id ∉ (get_ready_subtasks l c res sk).2.2 := by
  induction l generalizing c sk with
  | nil => intro u hu; simp [get_ready_subtasks] at hu
  | cons s rest ih =>
    have hndr : (rest.map Subtask.id).Nodup := (List.nodup_cons.mp hnd).2
    have hhead : s.id ∉ rest.map Subtask.id := (List.nodup_cons.mp hnd).1
    simp only [get_ready_subtasks]
    split_ifs with h1 h2 h3
    · exact ih c sk hsk hndr
    · exact ih c sk hsk hndr
    · refine ih _ _ (fun x hx => ?_) hndr
      rcases mem_insertNew.mp hx with h | rfl
      · exact mem_insertNew.mpr (Or.inl (hsk x h))
      · exact self_mem_insertNew
    · intro u hu hmem
      rcases List.mem_cons.mp hu with rfl | hu'
      · rcases grs_skipped_mem rest c res sk u.id hmem with h | ⟨⟨w, hw, he⟩, _⟩
        · exact h1 (hsk u.id h)
        · exact hhead (he ▸ List.mem_map_of_mem Subtask.id hw)
      · exact ih c sk hsk hndr u hu' hmem

theorem dispatchParallel_eq (runner : Runner) (st : ExecState)
    (ready : List Subtask) :
    dispatchParallel runner st ready
      = { st with
          results := ready.foldl
            (fun r s => dictInsert r s.id (parText runner st.results s)) st.results
          completed := ready.foldl (fun c s => insertNew c s.id) st.completed
          trace := st.trace ++ ready.map (fun s => ⟨s, st.results, st.completed⟩) } := by
  simp only [dispatchParallel]
  have key : ∀ (l : List Subtask) (r : List (Str × Str)) (c : List Str),
      l.foldl
        (fun (acc : List (Str × Str) × List Str) s =>
          let text := match runner s st.results with
            | .ok t => t
            | .exn m => str "Error: " ++ m
          (dictInsert acc.1 s.id text, insertNew acc.2 s.id)) (r, c)
      = (l.foldl (fun r s => dictInsert r s.id (parText runner st.results s)) r,
         l.foldl (fun c s => insertNew c s.id) c) := by
    intro l
    induction l with
    | nil => intro r c; rfl
    | cons s rest ih =>
      intro r c
      simp only [List.foldl_cons]
      exact ih _ _
  rw [key]

theorem foldl_insertNew_grows (l : List Subtask) (c : List Str) :
    c <+: l.foldl (fun c s => insertNew c s.id) c := by
  induction l generalizing c with
  | nil => exact List.prefix_rfl
  | cons s rest ih =>
    simp only [List.foldl_cons]
    exact List.IsPrefix.trans prefix_insertNew (ih _)

theorem foldl_insertNew_mem_of_mem (l : List Subtask) (c : List Str) {u : Subtask}
    (hu : u ∈ l) : u.id ∈ l.foldl (fun c s => insertNew c s.id) c := by
  induction l generalizing c with
  | nil => simp at hu
  | cons s rest ih =>
    simp only [List.foldl_cons]
    rcases List.mem_cons.mp hu with rfl | hu'
    · exact (foldl_insertNew_grows rest _).subset self_mem_insertNew
    · exact ih _ hu'

theorem foldl_insertNew_from (l : List Subtask) (c : List Str) :
    ∀ x ∈ l.foldl (fun c s => insertNew c s.id) c,
      x ∈ c ∨ ∃ u ∈ l, u.id = x := by
  induction l generalizing c with
  | nil => intro x hx; exact Or.inl hx
  | cons s rest ih =>
    intro x hx
    simp only [List.foldl_cons] at hx
    rcases ih _ x hx with h | ⟨u, hu, he⟩
    · rcases mem_insertNew.mp h with h' | rfl
      · exact Or.inl h'
      · exact Or.inr ⟨s, List.mem_cons_self s rest, rfl⟩
    · exact Or.inr ⟨u, List.mem_cons_of_mem s hu, he⟩

theorem foldl_insertNew_nodup (l : List Subtask) (c : List Str) (hc : c.Nodup) :
    (l.foldl (fun c s => insertNew c s.id) c).Nodup := by
  induction l generalizing c with
  | nil => exact hc
  | cons s rest ih =>
    simp only [List.foldl_cons]
    exact ih _ (nodup_insertNew hc)

theorem keysOf_foldl_dictInsert (l : List Subtask) (f : Subtask → Str)
    (r : List (Str × Str)) :
    ∀ k ∈ keysOf (l.foldl (fun r s => dictInsert r s.id (f s)) r),
      k ∈ keysOf r ∨ ∃ u ∈ l, u.id = k := by
  induction l generalizing r with
  | nil => intro k hk; exact Or.inl hk
  | cons s rest ih =>
    intro k hk
    simp only [List.foldl_cons] at hk
    rcases ih _ k hk with h | ⟨u, hu, he⟩
    · rw [keysOf_dictInsert] at h
      split_ifs at h with hm
      · exact Or.inl h
      · rcases List.mem_append.mp h with h' | h'
        · exact Or.inl h'
        · simp at h'
          exact Or.inr ⟨s, List.mem_cons_self s rest, h'.symm⟩
    · exact Or.inr ⟨u, List.mem_cons_of_mem s hu, he⟩

theorem lookup?_foldl_dictInsert_not_mem (l : List Subtask) (f : Subtask → Str)
    (r : List (Str × Str)) {x : Str} (hx : ∀ u ∈ l, u.id ≠ x) :
    lookup? (l.foldl (fun r s => dictInsert r s.id (f s)) r) x = lookup? r x := by
  induction l generalizing r with
  | nil => rfl
  | cons s rest ih =>
    simp only [List.foldl_cons]
    rw [ih _ (fun u hu => hx u (List.mem_cons_of_mem s hu))]
    exact lookup?_dictInsert_ne (fun e => hx s (List.mem_cons_self s rest) e.symm)

theorem lookup?_foldl_dictInsert_mem (l : List Subtask) (f : Subtask → Str)
    (r : List (Str × Str)) {u : Subtask} (hu : u ∈ l)
    (hnd : (l.map Subtask.id).Nodup) :
    lookup? (l.foldl (fun r s => dictInsert r s.id (f s)) r) u.id = some (f u) := by
  induction l generalizing r with
  | nil => simp at hu
  | cons s rest ih =>
    simp only [List.foldl_cons]
    rcases List.mem_cons.mp hu with rfl | hu'
    · rw [lookup?_foldl_dictInsert_not_mem]
      · exact lookup?_dictInsert_self
      · intro w hw he
        exact (List.nodup_cons.mp hnd).1 (he ▸ List.mem_map_of_mem Subtask.id hw)
    · exact ih _ hu' (List.nodup_cons.mp hnd).2

/-! ## The scheduler invariant -/

theorem id_mem_planIds {p : ExecutionPlan} {u : Subtask} (hu : u ∈ p.subtasks) :
    u.id ∈ planIds p := List.mem_map_of_mem _ hu

theorem inv_init (p : ExecutionPlan) : Inv p initState := by
  constructor <;> simp [initState, traceIds, keysOf]

/-- The frontier computation preserves the invariant (it can only add
condition-skipped ids to `completed` and `skipped`). -/
theorem inv_mid (p : ExecutionPlan) (st : ExecState) (hI : Inv p st) :
    Inv p { st with
      completed := (get_ready_subtasks p.subtasks st.completed st.results st.skipped).2.1
      skipped := (get_ready_subtasks p.subtasks st.completed st.results st.skipped).2.2 } := by
  constructor
  · exact grs_completed_nodup _ _ _ _ hI.completed_nodup
  · intro x hx
    rcases grs_completed_mem p.subtasks st.completed st.results st.skipped x hx with
      h | ⟨⟨u, hu, he⟩, _⟩
    · exact hI.completed_sub x h
    · exact he ▸ id_mem_planIds hu
  · intro x hx
    exact (grs_completed_grows p.subtasks st.completed st.results st.skipped).subset
      (hI.trace_sub_completed x hx)
  · exact grs_skipped_in_completed p.subtasks st.completed st.results st.skipped
      hI.skipped_sub_completed
  · exact hI.results_sub_trace
  · intro x hx
    rcases grs_skipped_mem p.subtasks st.completed st.results st.skipped x hx with
      h | ⟨_, hc⟩
    · exact hI.skipped_trace_disjoint x h
    · exact fun ht => hc (hI.trace_sub_completed x ht)
  · exact hI.trace_nodup
  · exact hI.trace_deps

/-! ## Loop-level theorems -/

theorem executeLoop_inv (p : ExecutionPlan) (runner : Runner)
    (hnd : (planIds p).Nodup) :
    ∀ (fuel : Nat) (st st' : ExecState), Inv p st →
      executeLoop p runner fuel st = some (.ok st') → Inv p st' := by
  intro fuel
  induction fuel with
  | zero =>
    intro st st' _ h
    simp [executeLoop] at h
  | succ fuel ih =>
    intro st st' hI hrun
    simp only [executeLoop] at hrun
    by_cases hlt : st.completed.length < p.subtasks.length
    · rw [if_pos hlt] at hrun
      have hmid := inv_mid p st hI
      -- facts about the frontier members, relative to the pre-scan state
      have hnotmem := grs_ready_not_mem p.subtasks st.completed st.results st.skipped
      have hdeps := grs_ready_deps p.subtasks st.completed st.results st.skipped
      have hsubl := grs_ready_sublist p.subtasks st.completed st.results st.skipped
      have havoid := grs_ready_skipped_avoid p.subtasks st.completed st.results st.skipped
        hI.skipped_sub_completed hnd
      cases hready : (get_ready_subtasks p.subtasks st.completed st.results st.skipped).1 with
      | nil =>
        rw [hready] at hrun
        simp only [Option.some.injEq, Except.ok.injEq] at hrun
        exact hrun ▸ hmid
      | cons s tail =>
        rw [hready] at hnotmem hdeps hsubl havoid
        cases tail with
        | nil =>
          -- single dispatch
          rw [hready] at hrun
          cases hout : runner s st.results with
          | exn m =>
            simp [dispatchSingle, hout] at hrun
          | ok text =>
            simp only [dispatchSingle, hout] at hrun
            set c2 := (get_ready_subtasks p.subtasks st.completed st.results st.skipped).2.1 with hc2
            set sk2 := (get_ready_subtasks p.subtasks st.completed st.results st.skipped).2.2 with hsk2
            refine ih _ st' ?_ hrun
            have hs_mem_plan : s ∈ p.subtasks := hsubl.subset (List.mem_cons_self s [])
            have hs_not_c : s.id ∉ st.completed := hnotmem s (List.mem_cons_self s [])
            constructor
            · exact nodup_insertNew hmid.completed_nodup
            · intro x hx
              rcases mem_insertNew.mp hx with h | rfl
              · exact hmid.completed_sub x h
              · exact id_mem_planIds hs_mem_plan
            · intro x hx
              simp only [traceIds, List.map_append, List.map_cons, List.map_nil,
                List.mem_append, List.mem_cons] at hx
              rcases hx with h | h
              · exact mem_insertNew.mpr (Or.inl (hmid.trace_sub_completed x h))
              · rcases h with h | h
                · subst h
                  exact self_mem_insertNew
                · exact absurd h (List.not_mem_nil x)
            · intro x hx
              exact mem_insertNew.mpr (Or.inl (hmid.skipped_sub_completed x hx))
            · intro k hk
              rw [keysOf_dictInsert] at hk
              simp only [traceIds, List.map_append, List.map_cons, List.map_nil,
                List.mem_append, List.mem_cons]
              split_ifs at hk with hmem
              · exact Or.inl (hmid.results_sub_trace k hk)
              · rcases List.mem_append.mp hk with h | h
                · exact Or.inl (hmid.results_sub_trace k h)
                · simp at h
                  exact Or.inr (Or.inl h)
            · intro x hx
              simp only [traceIds, List.map_append, List.map_cons, List.map_nil,
                List.mem_append, List.mem_cons]
              push_neg
              refine ⟨hmid.skipped_trace_disjoint x hx, ?_, List.not_mem_nil x⟩
              intro he
              exact havoid s (List.mem_cons_self s []) (he ▸ hx)
            · simp only [traceIds, List.map_append, List.map_cons, List.map_nil]
              rw [List.nodup_append]
              refine ⟨hmid.trace_nodup, List.nodup_singleton _, ?_⟩
              intro x hx
              simp only [List.mem_singleton]
              intro he
              exact hs_not_c (he ▸ hI.trace_sub_completed x hx)
            · intro e he
              rcases List.mem_append.mp he with h | h
              · exact hmid.trace_deps e h
              · simp only [List.mem_singleton] at h
                subst h
                intro d hd
                exact hdeps s (List.mem_cons_self s []) d hd
        | cons s2 tail2 =>
          -- parallel dispatch
          rw [hready] at hrun
          simp only [dispatchParallel_eq] at hrun
          set ready := s :: s2 :: tail2 with hready_def
          refine ih _ st' ?_ hrun
          have hready_sub : ∀ u ∈ ready, u ∈ p.subtasks := fun u hu => hsubl.subset hu
          have hready_nd : (ready.map Subtask.id).Nodup :=
            List.Nodup.sublist (hsubl.map Subtask.id) hnd
          constructor
          · exact foldl_insertNew_nodup ready _ hmid.completed_nodup
          · intro x hx
            rcases foldl_insertNew_from ready _ x hx with h | ⟨u, hu, he⟩
            · exact hmid.completed_sub x h
            · exact he ▸ id_mem_planIds (hready_sub u hu)
          · intro x hx
            simp only [traceIds, List.map_append, List.map_map, List.mem_append] at hx
            rcases hx with h | h
            · exact (foldl_insertNew_grows ready _).subset (hmid.trace_sub_completed x h)
            · simp only [List.mem_map, Function.comp] at h
              obtain ⟨u, hu, he⟩ := h
              exact he ▸ foldl_insertNew_mem_of_mem ready _ hu
          · intro x hx
            exact (foldl_insertNew_grows ready _).subset (hmid.skipped_sub_completed x hx)
          · intro k hk
            rcases keysOf_foldl_dictInsert ready _ _ k hk with h | ⟨u, hu, he⟩
            · simp only [traceIds, List.map_append, List.mem_append]
              exact Or.inl (hmid.results_sub_trace k h)
            · simp only [traceIds, List.map_append, List.map_map, List.mem_append]
              refine Or.inr ?_
              simp only [List.mem_map, Function.comp]
              exact ⟨u, hu, he⟩
          · intro x hx
            simp only [traceIds, List.map_append, List.map_map, List.mem_append]
            push_neg
            refine ⟨hmid.skipped_trace_disjoint x hx, ?_⟩
            simp only [List.mem_map, Function.comp]
            rintro ⟨u, hu, he⟩
            exact havoid u hu (he.symm ▸ hx)
          · simp only [traceIds, List.map_append, List.map_map]
            rw [List.nodup_append]
            refine ⟨hmid.trace_nodup, ?_, ?_⟩
            · exact hready_nd
            · intro x hx hx2
              simp only [List.mem_map, Function.comp] at hx2
              obtain ⟨u, hu, he⟩ := hx2
              exact hnotmem u hu (he.symm ▸ hI.trace_sub_completed x hx)
          · intro e he
            rcases List.mem_append.mp he with h | h
            · exact hmid.trace_deps e h
            · simp only [List.mem_map] at h
              obtain ⟨u, hu, he'⟩ := h
              subst he'
              intro d hd
              exact hdeps u hu d hd
    · rw [if_neg hlt] at hrun
      simp only [Option.some.injEq, Except.ok.injEq] at hrun
      exact hrun ▸ hI

theorem invc_of_inv {p : ExecutionPlan} {st : ExecState} (h : Inv p st) :
    InvC p st := ⟨h.completed_nodup, h.completed_sub⟩

theorem completed_length_le {p : ExecutionPlan} {st : ExecState}
    (h : InvC p st) : st.completed.length ≤ p.subtasks.length := by
  have hsp := List.subperm_of_subset h.nodup (fun x hx => h.sub x hx)
  have := hsp.length_le
  rwa [planIds, List.length_map] at this

theorem invc_mid (p : ExecutionPlan) (st : ExecState) (hC : InvC p st) :
    InvC p { st with
      completed := (get_ready_subtasks p.subtasks st.completed st.results st.skipped).2.1
      skipped := (get_ready_subtasks p.subtasks st.completed st.results st.skipped).2.2 } := by
  constructor
  · exact grs_completed_nodup _ _ _ _ hC.nodup
  · intro x hx
    rcases grs_completed_mem p.subtasks st.completed st.results st.skipped x hx with
      h | ⟨⟨u, hu, he⟩, _⟩
    · exact hC.sub x h
    · exact he ▸ id_mem_planIds hu

/-- With fuel exceeding the number of still-incomplete subtasks, the loop
always returns: each iteration with a nonempty frontier strictly grows the
completed set (this is the code's progress guarantee). -/
theorem executeLoop_some (p : ExecutionPlan) (runner : Runner) :
    ∀ (fuel : Nat) (st : ExecState), InvC p st →
      p.subtasks.length + 1 - st.completed.length ≤ fuel →
      ∃ r, executeLoop p runner fuel st = some r := by
  intro fuel
  induction fuel with
  | zero =>
    intro st hC hf
    exfalso
    have := completed_length_le hC
    omega
  | succ fuel ih =>
    intro st hC hf
    simp only [executeLoop]
    by_cases hlt : st.completed.length < p.subtasks.length
    · rw [if_pos hlt]
      have hmidC := invc_mid p st hC
      have hnotmem := grs_ready_not_mem p.subtasks st.completed st.results st.skipped
      have hsubl := grs_ready_sublist p.subtasks st.completed st.results st.skipped
      have hpre := grs_completed_grows p.subtasks st.completed st.results st.skipped
      cases hready : (get_ready_subtasks p.subtasks st.completed st.results st.skipped).1 with
      | nil => exact ⟨_, rfl⟩
      | cons s tail =>
        rw [hready] at hnotmem hsubl
        have hs_ready : s.id ∉ st.completed := hnotmem s (List.mem_cons_self s tail)
        have hs_plan : s ∈ p.subtasks := hsubl.subset (List.mem_cons_self s tail)
        cases tail with
        | nil =>
          cases hout : runner s st.results with
          | exn m => exact ⟨Except.error m, by simp [dispatchSingle, hout]⟩
          | ok text =>
            have hgrow : st.completed.length
                < (insertNew (get_ready_subtasks p.subtasks st.completed st.results st.skipped).2.1 s.id).length := by
              refine length_lt_of_prefix_mem
                (List.IsPrefix.trans hpre prefix_insertNew) self_mem_insertNew hs_ready
            have hC3 : InvC p
                { results := dictInsert st.results s.id text
                  completed := insertNew (get_ready_subtasks p.subtasks st.completed st.results st.skipped).2.1 s.id
                  skipped := (get_ready_subtasks p.subtasks st.completed st.results st.skipped).2.2
                  trace := st.trace ++ [⟨s, st.results,
                    (get_ready_subtasks p.subtasks st.completed st.results st.skipped).2.1⟩] } := by
              constructor
              · exact nodup_insertNew hmidC.nodup
              · intro x hx
                rcases mem_insertNew.mp hx with h | rfl
                · exact hmidC.sub x h
                · exact id_mem_planIds hs_plan
            have hfuel : p.subtasks.length + 1
                - (insertNew (get_ready_subtasks p.subtasks st.completed st.results st.skipped).2.1 s.id).length
                ≤ fuel := by omega
            obtain ⟨r, hr⟩ := ih _ hC3 hfuel
            refine ⟨r, ?_⟩
            simp only [dispatchSingle, hout]
            exact hr
        | cons s2 tail2 =>
          have hgrow : st.completed.length
              < ((s :: s2 :: tail2).foldl (fun c u => insertNew c u.id)
                  (get_ready_subtasks p.subtasks st.completed st.results st.skipped).2.1).length := by
            refine length_lt_of_prefix_mem
              (List.IsPrefix.trans hpre (foldl_insertNew_grows _ _)) ?_ hs_ready
            exact foldl_insertNew_mem_of_mem _ _ (List.mem_cons_self s (s2 :: tail2))
          have hC3 : InvC p (dispatchParallel runner
              { st with
                completed := (get_ready_subtasks p.subtasks st.completed st.results st.skipped).2.1
                skipped := (get_ready_subtasks p.subtasks st.completed st.results st.skipped).2.2 }
              (s :: s2 :: tail2)) := by
            rw [dispatchParallel_eq]
            constructor
            · exact foldl_insertNew_nodup _ _ hmidC.nodup
            · intro x hx
              rcases foldl_insertNew_from _ _ x hx with h | ⟨u, hu, he⟩
              · exact hmidC.sub x h
              · exact he ▸ id_mem_planIds (hsubl.subset hu)
          have hcompl : (dispatchParallel runner
              { st with
                completed := (get_ready_subtasks p.subtasks st.completed st.results st.skipped).2.1
                skipped := (get_ready_subtasks p.subtasks st.completed st.results st.skipped).2.2 }
              (s :: s2 :: tail2)).completed
              = (s :: s2 :: tail2).foldl (fun c u => insertNew c u.id)
                  (get_ready_subtasks p.subtasks st.completed st.results st.skipped).2.1 := by
            rw [dispatchParallel_eq]
          have hfuel : p.subtasks.length + 1
              - (dispatchParallel runner
                  { st with
                    completed := (get_ready_subtasks p.subtasks st.completed st.results st.skipped).2.1
                    skipped := (get_ready_subtasks p.subtasks st.completed st.results st.skipped).2.2 }
                  (s :: s2 :: tail2)).completed.length ≤ fuel := by
            rw [hcompl]
            omega
          obtain ⟨r, hr⟩ := ih _ hC3 hfuel
          exact ⟨r, hr⟩
    · rw [if_neg hlt]
      exact ⟨_, rfl⟩

/-- The completed-set invariant reaches the final state (no duplicate-id
hypothesis needed, unlike the full invariant). -/
theorem executeLoop_invc (p : ExecutionPlan) (runner : Runner) :
    ∀ (fuel : Nat) (st st' : ExecState), InvC p st →
      executeLoop p runner fuel st = some (.ok st') → InvC p st' := by
  intro fuel
  induction fuel with
  | zero =>
    intro st st' _ h
    simp [executeLoop] at h
  | succ fuel ih =>
    intro st st' hC hrun
    simp only [executeLoop] at hrun
    by_cases hlt : st.completed.length < p.subtasks.length
    · rw [if_pos hlt] at hrun
      have hmidC := invc_mid p st hC
      have hsubl := grs_ready_sublist p.subtasks st.completed st.results st.skipped
      cases hready : (get_ready_subtasks p.subtasks st.completed st.results st.skipped).1 with
      | nil =>
        rw [hready] at hrun
        simp only [Option.some.injEq, Except.ok.injEq] at hrun
        exact hrun ▸ hmidC
      | cons s tail =>
        rw [hready] at hrun hsubl
        cases tail with
        | nil =>
          cases hout : runner s st.results with
          | exn m => simp [dispatchSingle, hout] at hrun
          | ok text =>
            simp only [dispatchSingle, hout] at hrun
            refine ih _ st' ?_ hrun
            constructor
            · exact nodup_insertNew hmidC.nodup
            · intro x hx
              rcases mem_insertNew.mp hx with h | rfl
              · exact hmidC.sub x h
              · exact id_mem_planIds (hsubl.subset (List.mem_cons_self s []))
        | cons s2 tail2 =>
          rw [dispatchParallel_eq] at hrun
          refine ih _ st' ?_ hrun
          constructor
          · exact foldl_insertNew_nodup _ _ hmidC.nodup
          · intro x hx
            rcases foldl_insertNew_from _ _ x hx with h | ⟨u, hu, he⟩
            · exact hmidC.sub x h
            · exact he ▸ id_mem_planIds (hsubl.subset hu)
    · rw [if_neg hlt] at hrun
      simp only [Option.some.injEq, Except.ok.injEq] at hrun
      exact hrun ▸ hC

/-- When the task runner never raises, the loop never ends in the
exception-propagating state. -/
theorem executeLoop_ok_of_runner_ok (p : ExecutionPlan) (runner : Runner)
    (hok : ∀ s res, (runner s res).isOk = true) :
    ∀ (fuel : Nat) (st : ExecState) (r : Except Str ExecState),
      executeLoop p runner fuel st = some r → ∃ st', r = .ok st' := by
  intro fuel
  induction fuel with
  | zero =>
    intro st r h
    simp [executeLoop] at h
  | succ fuel ih =>
    intro st r hrun
    simp only [executeLoop] at hrun
    by_cases hlt : st.completed.length < p.subtasks.length
    · rw [if_pos hlt] at hrun
      cases hready : (get_ready_subtasks p.subtasks st.completed st.results st.skipped).1 with
      | nil =>
        rw [hready] at hrun
        simp only [Option.some.injEq] at hrun
        exact ⟨_, hrun.symm⟩
      | cons s tail =>
        rw [hready] at hrun
        cases tail with
        | nil =>
          cases hout : runner s st.results with
          | exn m =>
            have := hok s st.results
            rw [hout] at this
            simp [Outcome.isOk] at this
          | ok text =>
            simp only [dispatchSingle, hout] at hrun
            exact ih _ r hrun
        | cons s2 tail2 => exact ih _ r hrun
    · rw [if_neg hlt] at hrun
      simp only [Option.some.injEq] at hrun
      exact ⟨_, hrun.symm⟩

/-- In a condition-free plan the frontier scan never mutates state, so a
normal end of the loop means either full completion or an empty frontier
at the final state itself. -/
theorem executeLoop_break_condfree (p : ExecutionPlan) (runner : Runner)
    (hcf : ∀ u ∈ p.subtasks, hasCond u = false) :
    ∀ (fuel : Nat) (st st' : ExecState),
      executeLoop p runner fuel st = some (.ok st') →
      p.subtasks.length ≤ st'.completed.length ∨
        (get_ready_subtasks p.subtasks st'.completed st'.results st'.skipped).1 = [] := by
  intro fuel
  induction fuel with
  | zero =>
    intro st st' h
    simp [executeLoop] at h
  | succ fuel ih =>
    intro st st' hrun
    simp only [executeLoop] at hrun
    by_cases hlt : st.completed.length < p.subtasks.length
    · rw [if_pos hlt] at hrun
      have hcc := grs_condfree p.subtasks st.completed st.results st.skipped hcf
      cases hready : (get_ready_subtasks p.subtasks st.completed st.results st.skipped).1 with
      | nil =>
        rw [hready] at hrun
        simp only [Option.some.injEq, Except.ok.injEq] at hrun
        right
        rw [← hrun]
        simp only [hcc.1, hcc.2]
        exact hready
      | cons s tail =>
        rw [hready] at hrun
        cases tail with
        | nil =>
          cases hout : runner s st.results with
          | exn m => simp [dispatchSingle, hout] at hrun
          | ok text =>
            simp only [dispatchSingle, hout] at hrun
            exact ih _ st' hrun
        | cons s2 tail2 => exact ih _ st' hrun
    · rw [if_neg hlt] at hrun
      simp only [Option.some.injEq, Except.ok.injEq] at hrun
      subst hrun
      omega

/-- The ranking argument: if every still-incomplete subtask has an
incomplete dependency, acyclicity plus valid references force every
subtask to be complete. -/
theorem all_completed_of_break (p : ExecutionPlan) (rank : Str → Nat)
    (hacyc : ∀ s ∈ p.subtasks, ∀ d ∈ s.depends_on, rank d < rank s.id)
    (hrefs : ∀ s ∈ p.subtasks, ∀ d ∈ s.depends_on, d ∈ planIds p)
    (c : List Str)
    (hbreak : ∀ u ∈ p.subtasks, u.id ∈ c ∨ ∃ d ∈ u.depends_on, d ∉ c) :
    ∀ s ∈ p.subtasks, s.id ∈ c := by
  have aux : ∀ n, ∀ s ∈ p.subtasks, rank s.id < n → s.id ∈ c := by
    intro n
    induction n with
    | zero => intro s _ h; omega
    | succ n ihn =>
      intro s hs hr
      rcases hbreak s hs with h | ⟨d, hd, hdc⟩
      · exact h
      · exfalso
        obtain ⟨t, ht, hte⟩ : ∃ t ∈ p.subtasks, t.id = d := by
          have := hrefs s hs d hd
          simp only [planIds, List.mem_map] at this
          obtain ⟨t, ht, he⟩ := this
          exact ⟨t, ht, he⟩
        subst hte
        have hrd := hacyc s hs t.id hd
        exact hdc (ihn t ht (by omega))
  intro s hs
  exact aux (rank s.id + 1) s hs (Nat.lt_succ_self _)

example :
    (finalStateOf? diamondPlan okRunner).map traceIds
      = some [str "a", str "b", str "c", str "d"] := by decide

example :
    (finalStateOf? diamondPlan okRunner).map (fun st => st.completed)
      = some [str "a", str "b", str "c", str "d"] := by decide

example :
    (finalStateOf? planC1cex okRunner).map (fun st => st.completed)
      = some [str "d"] := by decide

example :
    (finalStateOf? planC1cex okRunner).map (fun st => st.results)
      = some [] := by decide

example :
    (finalStateOf? planC9cex okRunner).map (fun st => st.trace)
      = some [⟨subD "s" ["d"], [], [str "d"]⟩] := by decide

example :
    (finalStateOf? rainPlan rainRunner).map
      (fun st => (st.completed, st.skipped, traceIds st, keysOf st.results))
      = some ([str "a", str "x"], [str "x"], [str "a"], [str "a"]) := by decide

/-! ## C1: termination and graph completion -/

/-- C1, counterexample to the claim as stated: `planC1cex` is an acyclic,
valid-reference plan, the runner always succeeds, yet the run terminates
with `completed = {d}`, missing subtask `s`.  The skip of `d` happens
during the same frontier scan that already passed over `s`, so the scan
returns an empty frontier and the loop breaks before ever re-examining
`s`. -/
theorem C1_counterexample :
    Acyclic planC1cex ∧ ValidRefs planC1cex ∧ RunnerOk okRunner ∧
    finalStateOf? planC1cex okRunner = some ⟨[], [str "d"], [str "d"], []⟩ ∧
    str "s" ∈ planIds planC1cex ∧ str "s" ∉ ([str "d"] : List Str) := by
  refine ⟨⟨fun x => if x = str "d" then 0 else 1, by decide⟩,
    by unfold ValidRefs; decide,
    fun s res => rfl, by decide, by decide, by decide⟩

/-- C1 (amended): for every plan whose `depends_on` relation is acyclic,
whose dependencies reference only ids of the plan, and in which no subtask
carries a condition (no condition skips can occur), `execute`'s scheduling
loop terminates normally (with the provably sufficient default fuel) and
the completed set covers exactly the plan's subtask ids. -/
theorem C1_graph_completion (p : ExecutionPlan) (runner : Runner)
    (hacyc : Acyclic p) (hrefs : ValidRefs p) (hcf : CondFree p)
    (hok : RunnerOk runner) :
    ∃ st, runPlan p runner = some (.ok st)
      ∧ (∀ s ∈ p.subtasks, s.id ∈ st.completed)
      ∧ (∀ x ∈ st.completed, x ∈ planIds p) := by
  obtain ⟨rank, hrank⟩ := hacyc
  have hinit : InvC p initState := by
    constructor <;> simp [initState]
  obtain ⟨r, hr⟩ := executeLoop_some p runner (defaultFuel p) initState hinit
    (by simp [defaultFuel, initState])
  obtain ⟨st, rfl⟩ := executeLoop_ok_of_runner_ok p runner hok _ _ _ hr
  have hfinC : InvC p st := executeLoop_invc p runner _ _ _ hinit hr
  refine ⟨st, hr, ?_, hfinC.sub⟩
  rcases executeLoop_break_condfree p runner hcf _ _ _ hr with hge | hbreak
  · have hsp := List.subperm_of_subset hfinC.nodup (fun x hx => hfinC.sub x hx)
    have hperm := hsp.perm_of_length_le
      (by rw [planIds, List.length_map]; exact hge)
    intro s hs
    exact hperm.mem_iff.mpr (id_mem_planIds hs)
  · exact all_completed_of_break p rank hrank hrefs st.completed
      (grs_break p.subtasks st.completed st.results st.skipped hcf hbreak)

/-- Witness: the amended C1 applied to the concrete diamond plan. -/
theorem C1_witness :
    Acyclic diamondPlan ∧ ValidRefs diamondPlan ∧ CondFree diamondPlan ∧
    RunnerOk okRunner ∧
    ∃ st, runPlan diamondPlan okRunner = some (.ok st)
      ∧ (∀ s ∈ diamondPlan.subtasks, s.id ∈ st.completed)
      ∧ (∀ x ∈ st.completed, x ∈ planIds diamondPlan) := by
  have hacyc : Acyclic diamondPlan :=
    ⟨fun x => if x = str "a" then 0 else if x = str "d" then 2 else 1, by decide⟩
  have hrefs : ValidRefs diamondPlan := by unfold ValidRefs; decide
  have hcf : CondFree diamondPlan := by unfold CondFree; decide
  have hok : RunnerOk okRunner := fun s res => rfl
  exact ⟨hacyc, hrefs, hcf, hok,
    C1_graph_completion diamondPlan okRunner hacyc hrefs hcf hok⟩

/-- C2: within one run of a unique-id plan, the task runner is dispatched
at most once per subtask id (the dispatch trace has no duplicate), and in
the concrete diamond graph `a` runs once, then `b` and `c`, then `d`
exactly once, with both `b` and `c` completed at `d`'s dispatch. -/
theorem C2_no_reexecution :
    (∀ (p : ExecutionPlan) (runner : Runner) (st : ExecState),
        UniqueIds p → runPlan p runner = some (.ok st) →
        (traceIds st).Nodup)
    ∧ runPlan diamondPlan okRunner = some (.ok diamondFinal)
    ∧ traceIds diamondFinal = [str "a", str "b", str "c", str "d"]
    ∧ diamondFinal.trace.map (fun e => e.completedSnap)
        = [[], [str "a"], [str "a"], [str "a", str "b", str "c"]] := by
  refine ⟨?_, by decide, by decide, by decide⟩
  intro p runner st huid hrun
  exact (executeLoop_inv p runner huid (defaultFuel p) initState st
    (inv_init p) hrun).trace_nodup

/-- Witness for the universally quantified part of C2. -/
theorem C2_witness : (traceIds diamondFinal).Nodup :=
  C2_no_reexecution.1 diamondPlan okRunner diamondFinal
    (by unfold UniqueIds; decide) (by decide)

/-- C3: a condition-skipped subtask is in the completed set, has no entry
in the result map, and is never dispatched to the task runner at any point
of the run; concretely, with `A` answering a sunny forecast, `X`
(conditioned on `A contains rain`) is skipped: completed, without result,
never executed. -/
theorem C3_condition_skip :
    (∀ (p : ExecutionPlan) (runner : Runner) (st : ExecState),
        UniqueIds p → runPlan p runner = some (.ok st) →
        ∀ x ∈ st.skipped,
          x ∈ st.completed ∧ lookup? st.results x = none ∧ x ∉ traceIds st)
    ∧ runPlan rainPlan rainRunner = some (.ok rainFinal)
    ∧ rainFinal.skipped = [str "x"]
    ∧ str "x" ∈ rainFinal.completed
    ∧ lookup? rainFinal.results (str "x") = none
    ∧ str "x" ∉ traceIds rainFinal := by
  refine ⟨?_, by decide, by decide, by decide, by decide, by decide⟩
  intro p runner st huid hrun x hx
  have hInv := executeLoop_inv p runner huid (defaultFuel p) initState st
    (inv_init p) hrun
  refine ⟨hInv.skipped_sub_completed x hx, ?_, hInv.skipped_trace_disjoint x hx⟩
  rw [lookup?_eq_none]
  intro hk
  exact hInv.skipped_trace_disjoint x hx (hInv.results_sub_trace x hk)

/-- Witness for the universally quantified part of C3. -/
theorem C3_witness :
    str "x" ∈ rainFinal.completed ∧ lookup? rainFinal.results (str "x") = none
      ∧ str "x" ∉ traceIds rainFinal :=
  C3_condition_skip.1 rainPlan rainRunner rainFinal
    (by unfold UniqueIds; decide) (by decide) (str "x") (by decide)

/-- C8: after the loop ends normally, the output is selected by the size
of the result map: empty yields the fixed sentinel, a single entry is
returned verbatim (bypassing the synthesizer), two or more go to the
synthesizer. -/
theorem C8_output_selection (p : ExecutionPlan) (runner : Runner)
    (synth : List (Str × Str) → Str) (st : ExecState)
    (hrun : runPlan p runner = some (.ok st)) :
    executeG p runner synth = some (.ok (finalOutput synth st))
    ∧ (st.results = [] → finalOutput synth st = str "No subtasks were executed.")
    ∧ (∀ k v, st.results = [(k, v)] → finalOutput synth st = v)
    ∧ (2 ≤ st.results.length → finalOutput synth st = synth st.results) := by
  refine ⟨?_, ?_, ?_, ?_⟩
  · unfold executeG
    rw [hrun]
    rfl
  · intro h
    unfold finalOutput
    rw [h]
    rfl
  · intro k v h
    unfold finalOutput
    rw [h]
    rfl
  · intro h
    unfold finalOutput
    rw [if_neg (by omega), if_neg (by omega)]

/-- Witness: C8 on the diamond run, with a synthesizer whose model chain
is exhausted (deterministic concatenation fallback). -/
theorem C8_witness :
    executeG diamondPlan okRunner (synthesize_model [])
      = some (.ok (finalOutput (synthesize_model []) diamondFinal)) :=
  (C8_output_selection diamondPlan okRunner (synthesize_model []) diamondFinal
    (by decide)).1

/-- C9, counterexample to the claim as stated: in `planC9cex` (acyclic,
valid references, unique ids), subtask `s` is dispatched to the task
runner while its dependency `d` — skipped by a false condition — has no
entry in the results snapshot at dispatch time. -/
theorem C9_counterexample :
    Acyclic planC9cex ∧ ValidRefs planC9cex ∧ UniqueIds planC9cex ∧
    (finalStateOf? planC9cex okRunner).map (fun st => st.trace)
      = some [⟨subD "s" ["d"], [], [str "d"]⟩]
    ∧ str "d" ∈ (subD "s" ["d"]).depends_on
    ∧ lookup? ([] : List (Str × Str)) (str "d") = none := by
  refine ⟨⟨fun x => if x = str "d" then 0 else 1, by decide⟩,
    by unfold ValidRefs; decide, by unfold UniqueIds; decide,
    by decide, by decide, by decide⟩

/-- C9 (amended): for every dispatched subtask, every dependency id is in
the completed set at dispatch time (executed or skipped); a result entry
is only guaranteed for dependencies that were actually executed. -/
theorem C9_deps_completed (p : ExecutionPlan) (runner : Runner)
    (st : ExecState) (huid : UniqueIds p)
    (hrun : runPlan p runner = some (.ok st)) :
    ∀ e ∈ st.trace, ∀ d ∈ e.sub.depends_on, d ∈ e.completedSnap :=
  (executeLoop_inv p runner huid (defaultFuel p) initState st
    (inv_init p) hrun).trace_deps

/-- Witness: in the diamond run, dependency `b` of `d` is completed at
`d`'s dispatch. -/
theorem C9_witness :
    str "b" ∈ [str "a", str "b", str "c"] :=
  C9_deps_completed diamondPlan okRunner diamondFinal
    (by unfold UniqueIds; decide) (by decide)
    ⟨subD "d" ["b", "c"],
      [(str "a", str "done"), (str "b", str "done"), (str "c", str "done")],
      [str "a", str "b", str "c"]⟩
    (by decide) (str "b") (by decide)

/-- C10: in the multi-member (parallel) dispatch branch, an exception
escaping a task-runner invocation is recorded as `"Error: <message>"`
under that subtask's id and the subtask is still marked completed; the
parallel dispatch is total — it never propagates an exception (it returns
a plain state by construction, unlike the single-member branch). -/
theorem C10_parallel_capture (runner : Runner) (st : ExecState)
    (ready : List Subtask) (s : Subtask) (m : Str)
    (hlen : 2 ≤ ready.length) (hnd : (ready.map Subtask.id).Nodup)
    (hs : s ∈ ready) (hout : runner s st.results = .exn m) :
    lookup? (dispatchParallel runner st ready).results s.id
      = some (str "Error: " ++ m)
    ∧ s.id ∈ (dispatchParallel runner st ready).completed := by
  rw [dispatchParallel_eq]
  constructor
  · rw [lookup?_foldl_dictInsert_mem ready _ st.results hs hnd]
    unfold parText
    rw [hout]
  · exact foldl_insertNew_mem_of_mem ready st.completed hs

/-- Witness: C10 on a concrete two-member frontier where `b` raises. -/
theorem C10_witness :
    lookup? (dispatchParallel boomRunner initState
        [subND "b", subND "c"]).results (str "b")
      = some (str "Error: " ++ str "boom")
    ∧ str "b" ∈ (dispatchParallel boomRunner initState
        [subND "b", subND "c"]).completed := by
  have h := C10_parallel_capture boomRunner initState [subND "b", subND "c"]
    (subND "b") (str "boom") (by decide) (by decide) (by decide) (by decide)
  exact h

/-- C6: when every entry of the agent model chain fails, `execute_subtask`
returns the fixed, non-empty failure marker scoped to the subtask id; in a
concrete two-subtask run where `b`'s chain is exhausted, the marker is
recorded as `b`'s result like any normal output, the graph run completes,
and the marker appears in the synthesized (fallback-concatenated) output. -/
theorem C6_fallback_exhaustion :
    (∀ (sub : Subtask) (attempts : List (Except Str Str)),
        (∀ a ∈ attempts, a.isOk = false) →
        execute_subtask_model sub attempts = failMarker sub.id
          ∧ failMarker sub.id ≠ [])
    ∧ (finalStateOf? failPlan failRunner).map
        (fun st => (lookup? st.results (str "b"), st.completed))
      = some (some (failMarker (str "b")), [str "a", str "b"])
    ∧ (executeG failPlan failRunner (synthesize_model [])).map
        (fun e => e.map (fun out => containsSub (failMarker (str "b")) out))
      = some (.ok true) := by
  refine ⟨?_, by decide, by decide⟩
  intro sub attempts h
  constructor
  · induction attempts with
    | nil => rfl
    | cons a rest ih =>
      cases a with
      | ok v =>
        have hh := h (.ok v) (List.mem_cons_self _ _)
        simp [Except.isOk, Except.toBool] at hh
      | error m =>
        exact ih (fun a ha => h a (List.mem_cons_of_mem _ ha))
  · simp [failMarker, str]

/-- Witness for the universally quantified part of C6: the two-entry agent
chain (`MODEL_CHAINS["agent"]` has two models), both failing. -/
theorem C6_witness :
    execute_subtask_model (subND "b")
        [.error (str "quota exceeded"), .error (str "connection refused")]
      = failMarker (str "b")
    ∧ failMarker (str "b") ≠ [] :=
  C6_fallback_exhaustion.1 (subND "b")
    [.error (str "quota exceeded"), .error (str "connection refused")]
    (by decide)

theorem manualNeeded_eq (tools : List Str) (l : List Provider) (seen : List Nat) :
    manualNeeded tools l seen
      = dedupByPid (l.filter (fun pv => tools.any (fun t => exposes pv t))) seen := by
  induction l generalizing seen with
  | nil => rfl
  | cons mcp rest ih =>
    by_cases hF : mcp.hasFunctions
    · by_cases hseen : mcp.pid ∈ seen
      · by_cases hany : (tools.any fun t => decide (t ∈ mcp.functions)) = true
        · simp [manualNeeded, dedupByPid, exposes, hF, hseen, hany, ih]
        · simp [manualNeeded, dedupByPid, exposes, hF, hseen,
            Bool.not_eq_true _ ▸ hany, ih]
      · by_cases hany : (tools.any fun t => decide (t ∈ mcp.functions)) = true
        · simp [manualNeeded, dedupByPid, exposes, hF, hseen, hany, ih]
        · simp [manualNeeded, dedupByPid, exposes, hF, hseen,
            Bool.not_eq_true _ ▸ hany, ih]
    · simp [manualNeeded, dedupByPid, exposes, hF, ih]

theorem managerNeeded_eq (m : MCPManager) (names : List Str) (seen : List Nat) :
    managerNeeded m names seen
      = dedupByPid (names.filterMap (get_server_for_tool m)) seen := by
  induction names generalizing seen with
  | nil => rfl
  | cons n rest ih =>
    cases hfind : get_server_for_tool m n with
    | none => simp [managerNeeded, hfind, List.filterMap_cons, ih]
    | some server =>
      by_cases hseen : server.pid ∈ seen <;>
        simp [managerNeeded, hfind, List.filterMap_cons, dedupByPid, hseen, ih]

/-- C7 (amended): an empty required-capability list yields every provider
on both paths.  The manual fallback path returns exactly the providers
that expose at least one requested name, deduplicated by identity in
discovery order, falling back to all providers when none match.  The
manager path instead selects, for each requested name in request order,
the *first* server exposing that name (deduplicated by identity), falling
back to all servers when no name matches. -/
theorem C7_resolver :
    (∀ (sub : Subtask) (all_tools : List Provider) (mgr : Option MCPManager),
        sub.tools = [] → filter_tools_for_subtask sub all_tools mgr = all_tools)
    ∧ (∀ (sub : Subtask) (all_tools : List Provider), sub.tools ≠ [] →
        filter_tools_for_subtask sub all_tools none
          = if claimResolve sub.tools all_tools = [] then all_tools
            else claimResolve sub.tools all_tools)
    ∧ (∀ (sub : Subtask) (m : MCPManager) (all_tools : List Provider),
        sub.tools ≠ [] →
        filter_tools_for_subtask sub all_tools (some m)
          = if dedupByPid (sub.tools.filterMap (get_server_for_tool m)) [] = []
            then m.servers
            else dedupByPid (sub.tools.filterMap (get_server_for_tool m)) []) := by
  refine ⟨?_, ?_, ?_⟩
  · intro sub all_tools mgr h
    simp [filter_tools_for_subtask, h]
  · intro sub all_tools h
    have hne : sub.tools.isEmpty = false := by
      cases ht : sub.tools with
      | nil => exact absurd ht h
      | cons a t => rfl
    have hcr : dedupByPid
        (all_tools.filter (fun pv => sub.tools.any (fun t => exposes pv t))) []
        = claimResolve sub.tools all_tools := rfl
    simp only [filter_tools_for_subtask, hne, manualNeeded_eq, hcr]
    cases hc : claimResolve sub.tools all_tools with
    | nil => simp
    | cons a t => simp
  · intro sub m all_tools h
    have hne : sub.tools.isEmpty = false := by
      cases ht : sub.tools with
      | nil => exact absurd ht h
      | cons a t => rfl
    simp only [filter_tools_for_subtask, get_tools_for_subtask, hne,
      managerNeeded_eq]
    cases hc : dedupByPid (sub.tools.filterMap (get_server_for_tool m)) [] with
    | nil => simp
    | cons a t => simp

/-- C7, counterexample to the claim as stated: with a manager, the
resolver returns only the first server exposing the requested name, not
"exactly the providers exposing at least one of the requested tool names"
— `srvB` exposes `t1` but is dropped. -/
theorem C7_counterexample :
    filter_tools_for_subtask toolSub [srvA, srvB] (some twoServerMgr) = [srvA]
    ∧ exposes srvB (str "t1") = true
    ∧ srvB ∉ ([srvA] : List Provider)
    ∧ claimResolve toolSub.tools [srvA, srvB] = [srvA, srvB] := by
  refine ⟨by decide, by decide, by decide, by decide⟩

/-- Witness: the amended C7's manual path at a concrete input. -/
theorem C7_witness :
    filter_tools_for_subtask toolSub [srvA, srvB] none
      = if claimResolve toolSub.tools [srvA, srvB] = [] then [srvA, srvB]
        else claimResolve toolSub.tools [srvA, srvB] :=
  C7_resolver.2.1 toolSub [srvA, srvB] (by decide)

/-- C5 (code bug): the direct path is fault-terminal (an exception becomes
an apologetic string), but every request the router classifies as `agent`
makes `orchestrate` raise `AttributeError` at the unguarded
`execution_plan.mode` access of main_loop.py line 126 — the fault
propagates to the caller even though routing, planning and execution all
succeed. -/
theorem C5_agent_path_crash :
    orchestrate_model [.ok ⟨.agent, str "needs live data"⟩] (.ok (str "unused"))
        [.ok ⟨[subND "a"]⟩] (.ok (str "tool result"))
      = .error (str "AttributeError: ExecutionPlan object has no attribute mode")
    ∧ orchestrate_model [.ok ⟨.direct, str "greeting"⟩] (.error (str "boom"))
        [] (.ok (str "unused"))
      = .ok (apology_direct ++ str "boom") := by
  exact ⟨rfl, rfl⟩

/-! ## C4: the condition evaluator -/

theorem containsSub_of_isPrefixOf {pat s : Str} (h : pat.isPrefixOf s = true) :
    containsSub pat s = true := by
  cases s with
  | nil =>
    cases pat with
    | nil => rfl
    | cons a t => simp [List.isPrefixOf] at h
  | cons c t => simp [containsSub, h]

theorem containsSub_append_right (pat sPre t : Str)
    (h : containsSub pat t = true) : containsSub pat (sPre ++ t) = true := by
  induction sPre with
  | nil => simpa using h
  | cons c s' ih =>
    simp only [List.cons_append, containsSub]
    rw [Bool.or_eq_true]
    exact Or.inr ih

theorem containsSub_middle (pat a b : Str) :
    containsSub pat (a ++ (pat ++ b)) = true :=
  containsSub_append_right pat a (pat ++ b)
    (containsSub_of_isPrefixOf
      (List.isPrefixOf_iff_prefix.mpr (List.prefix_append pat b)))

theorem pyLower_append (a b : Str) :
    pyLower (a ++ b) = pyLower a ++ pyLower b := List.map_append _ a b

theorem append_left_ne_nil {a : Str} (b : Str) (ha : a ≠ []) : a ++ b ≠ [] :=
  fun h => ha (List.append_eq_nil.mp h).1

theorem append_isEmpty_false (a : Str) {b : Str} (hb : b ≠ []) :
    (a ++ b).isEmpty = false := by
  cases a with
  | nil =>
    cases b with
    | nil => exact absurd rfl hb
    | cons x t => rfl
  | cons c t => rfl

/-- C4 counterexample: per the claim, `"A is not empty"` with `A` present
and non-blank should evaluate true; the code lowercases the whole
condition before extracting the reference, looks up `"a"`, misses, and
returns false. -/
theorem C4_counterexample :
    lookup? [(str "A", str "x")] (str "A") = some (str "x")
    ∧ (stripWs (str "x")).isEmpty = false
    ∧ evaluate_condition (str "A is not empty") [(str "A", str "x")] = false := by
  refine ⟨by decide, by decide, by decide⟩

theorem evaluate_condition_contains_parsed (cond p0 p1 : Str)
    (results : List (Str × Str)) (hne : cond.isEmpty = false)
    (hg1 : containsSub (str " contains ") (pyLower cond) = true)
    (hsplit : splitFirst (str " contains ") cond = some (p0, p1)) :
    evaluate_condition cond results
      = match lookup? results (replaceAll (str ".result") [] (stripWs p0)) with
        | some text =>
          containsSub (pyLower (stripSet quoteChars (stripWs p1))) (pyLower text)
        | none => false := by
  simp only [evaluate_condition]
  rw [hne, if_neg Bool.false_ne_true, hg1, if_pos rfl, hsplit]

theorem evaluate_condition_contains_failed (cond : Str)
    (results : List (Str × Str)) (hne : cond.isEmpty = false)
    (hg1 : containsSub (str " contains ") (pyLower cond) = true)
    (hsplit : splitFirst (str " contains ") cond = none) :
    evaluate_condition cond results = true := by
  simp only [evaluate_condition]
  rw [hne, if_neg Bool.false_ne_true, hg1, if_pos rfl, hsplit]

theorem evaluate_condition_branch_notEmpty (cond : Str)
    (results : List (Str × Str)) (hne : cond.isEmpty = false)
    (hg1 : containsSub (str " contains ") (pyLower cond) = false)
    (hg2 : containsSub (str "is not empty") (pyLower cond) = true) :
    evaluate_condition cond results
      = match lookup? results (replaceAll (str ".result") []
          (stripWs (replaceAll (str "is not empty") [] (pyLower cond)))) with
        | some text => !(stripWs text).isEmpty
        | none => false := by
  simp only [evaluate_condition]
  rw [hne, if_neg Bool.false_ne_true, hg1, if_neg Bool.false_ne_true,
    hg2, if_pos rfl]

theorem evaluate_condition_branch_isEmpty (cond : Str)
    (results : List (Str × Str)) (hne : cond.isEmpty = false)
    (hg1 : containsSub (str " contains ") (pyLower cond) = false)
    (hg2 : containsSub (str "is not empty") (pyLower cond) = false)
    (hg3 : containsSub (str "is empty") (pyLower cond) = true) :
    evaluate_condition cond results
      = match lookup? results (replaceAll (str ".result") []
          (stripWs (replaceAll (str "is empty") [] (pyLower cond)))) with
        | some text => (stripWs text).isEmpty
        | none => true := by
  simp only [evaluate_condition]
  rw [hne, if_neg Bool.false_ne_true, hg1, if_neg Bool.false_ne_true,
    hg2, if_neg Bool.false_ne_true, hg3, if_pos rfl]

theorem evaluate_condition_default (cond : Str)
    (results : List (Str × Str)) (hne : cond.isEmpty = false)
    (hg1 : containsSub (str " contains ") (pyLower cond) = false)
    (hg2 : containsSub (str "is not empty") (pyLower cond) = false)
    (hg3 : containsSub (str "is empty") (pyLower cond) = false) :
    evaluate_condition cond results = true := by
  simp only [evaluate_condition]
  rw [hne, if_neg Bool.false_ne_true, hg1, if_neg Bool.false_ne_true,
    hg2, if_neg Bool.false_ne_true, hg3, if_neg Bool.false_ne_true]

/-- C4 (amended): `evaluate_condition` is true on the empty condition; on
`"<id> contains <term>"` (quoted or not) it is true iff the id — in its
original case — is present and its text contains the term
case-insensitively, and a `.result` suffix on the reference is stripped;
on the `is not empty` / `is empty` shapes the whole condition is
lowercased before the reference is extracted, so the lookup uses the
lowercased id; any unrecognized shape, and any parse failure of a
detected `contains` (e.g. mixed-case `CONTAINS`), yields true.  The
side-condition hypotheses pin down the parse of the reference and term
tokens (well-formedness of the condition's shape). -/
theorem C4_condition_evaluator :
    (∀ results, evaluate_condition [] results = true)
    ∧ (∀ (id rawTerm term : Str) (results : List (Str × Str)),
        splitFirst (str " contains ") (id ++ str " contains " ++ rawTerm)
          = some (id, rawTerm) →
        stripWs id = id →
        replaceAll (str ".result") [] id = id →
        stripSet quoteChars (stripWs rawTerm) = term →
        evaluate_condition (id ++ str " contains " ++ rawTerm) results
          = match lookup? results id with
            | some text => containsSub (pyLower term) (pyLower text)
            | none => false)
    ∧ (∀ (id rawTerm : Str) (results : List (Str × Str)),
        splitFirst (str " contains ")
            ((id ++ str ".result") ++ str " contains " ++ rawTerm)
          = some (id ++ str ".result", rawTerm) →
        splitFirst (str " contains ") (id ++ str " contains " ++ rawTerm)
          = some (id, rawTerm) →
        stripWs (id ++ str ".result") = id ++ str ".result" →
        stripWs id = id →
        replaceAll (str ".result") [] (id ++ str ".result") = id →
        replaceAll (str ".result") [] id = id →
        evaluate_condition ((id ++ str ".result") ++ str " contains " ++ rawTerm)
            results
          = evaluate_condition (id ++ str " contains " ++ rawTerm) results)
    ∧ (∀ (id : Str) (results : List (Str × Str)),
        containsSub (str " contains ") (pyLower id ++ str " is not empty")
          = false →
        replaceAll (str "is not empty") [] (pyLower id ++ str " is not empty")
          = pyLower id ++ [' '] →
        stripWs (pyLower id ++ [' ']) = pyLower id →
        replaceAll (str ".result") [] (pyLower id) = pyLower id →
        evaluate_condition (id ++ str " is not empty") results
          = match lookup? results (pyLower id) with
            | some text => !(stripWs text).isEmpty
            | none => false)
    ∧ (∀ (id : Str) (results : List (Str × Str)),
        containsSub (str " contains ") (pyLower id ++ str " is empty")
          = false →
        containsSub (str "is not empty") (pyLower id ++ str " is empty")
          = false →
        replaceAll (str "is empty") [] (pyLower id ++ str " is empty")
          = pyLower id ++ [' '] →
        stripWs (pyLower id ++ [' ']) = pyLower id →
        replaceAll (str ".result") [] (pyLower id) = pyLower id →
        evaluate_condition (id ++ str " is empty") results
          = match lookup? results (pyLower id) with
            | some text => (stripWs text).isEmpty
            | none => true)
    ∧ (∀ (cond : Str) (results : List (Str × Str)), cond ≠ [] →
        containsSub (str " contains ") (pyLower cond) = false →
        containsSub (str "is not empty") (pyLower cond) = false →
        containsSub (str "is empty") (pyLower cond) = false →
        evaluate_condition cond results = true)
    ∧ (∀ (cond : Str) (results : List (Str × Str)), cond ≠ [] →
        containsSub (str " contains ") (pyLower cond) = true →
        splitFirst (str " contains ") cond = none →
        evaluate_condition cond results = true) := by
  refine ⟨?_, ?_, ?_, ?_, ?_, ?_, ?_⟩
  · intro results
    rfl
  · intro id rawTerm term results hsplit hstrip hres hterm
    have hc : (id ++ str " contains " ++ rawTerm).isEmpty = false := by
      rw [List.append_assoc]
      exact append_isEmpty_false id (append_left_ne_nil _ (by decide))
    have hg1 : containsSub (str " contains ")
        (pyLower (id ++ str " contains " ++ rawTerm)) = true := by
      rw [List.append_assoc, pyLower_append,
        pyLower_append (str " contains ") rawTerm,
        show pyLower (str " contains ") = str " contains " from by decide]
      exact containsSub_middle _ _ _
    rw [evaluate_condition_contains_parsed _ id rawTerm results hc hg1 hsplit,
      hstrip, hres, hterm]
  · intro id rawTerm results hsplitL hsplitR hstripL hstripR hrepL hrepR
    have hcL : ((id ++ str ".result") ++ str " contains " ++ rawTerm).isEmpty
        = false := by
      rw [List.append_assoc]
      exact append_isEmpty_false _ (append_left_ne_nil _ (by decide))
    have hcR : (id ++ str " contains " ++ rawTerm).isEmpty = false := by
      rw [List.append_assoc]
      exact append_isEmpty_false id (append_left_ne_nil _ (by decide))
    have hg1L : containsSub (str " contains ")
        (pyLower ((id ++ str ".result") ++ str " contains " ++ rawTerm))
        = true := by
      rw [List.append_assoc, pyLower_append,
        pyLower_append (str " contains ") rawTerm,
        show pyLower (str " contains ") = str " contains " from by decide]
      exact containsSub_middle _ _ _
    have hg1R : containsSub (str " contains ")
        (pyLower (id ++ str " contains " ++ rawTerm)) = true := by
      rw [List.append_assoc, pyLower_append,
        pyLower_append (str " contains ") rawTerm,
        show pyLower (str " contains ") = str " contains " from by decide]
      exact containsSub_middle _ _ _
    rw [evaluate_condition_contains_parsed _ _ rawTerm results hcL hg1L hsplitL,
      evaluate_condition_contains_parsed _ id rawTerm results hcR hg1R hsplitR,
      hstripL, hstripR, hrepL, hrepR]
  · intro id results hg1 hrep hstrip hres
    have hc : (id ++ str " is not empty").isEmpty = false :=
      append_isEmpty_false id (by decide)
    have hlow : pyLower (id ++ str " is not empty")
        = pyLower id ++ str " is not empty" := by
      rw [pyLower_append,
        show pyLower (str " is not empty") = str " is not empty" from by decide]
    have hg2 : containsSub (str "is not empty")
        (pyLower id ++ str " is not empty") = true :=
      containsSub_append_right _ _ _ (by decide)
    rw [evaluate_condition_branch_notEmpty _ results hc
      (hlow.symm ▸ hg1) (hlow.symm ▸ hg2), hlow, hrep, hstrip, hres]
  · intro id results hg1 hg2 hrep hstrip hres
    have hc : (id ++ str " is empty").isEmpty = false :=
      append_isEmpty_false id (by decide)
    have hlow : pyLower (id ++ str " is empty")
        = pyLower id ++ str " is empty" := by
      rw [pyLower_append,
        show pyLower (str " is empty") = str " is empty" from by decide]
    have hg3 : containsSub (str "is empty")
        (pyLower id ++ str " is empty") = true :=
      containsSub_append_right _ _ _ (by decide)
    rw [evaluate_condition_branch_isEmpty _ results hc
      (hlow.symm ▸ hg1) (hlow.symm ▸ hg2) (hlow.symm ▸ hg3),
      hlow, hrep, hstrip, hres]
  · intro cond results hne hg1 hg2 hg3
    have hc : cond.isEmpty = false := by
      cases ht : cond with
      | nil => exact absurd ht hne
      | cons a t => rfl
    exact evaluate_condition_default cond results hc hg1 hg2 hg3
  · intro cond results hne hg1 hsplit
    have hc : cond.isEmpty = false := by
      cases ht : cond with
      | nil => exact absurd ht hne
      | cons a t => rfl
    exact evaluate_condition_contains_failed cond results hc hg1 hsplit

/-- Witness: the amended `is not empty` clause at a concrete lowercase id. -/
theorem C4_witness :
    evaluate_condition (str "a is not empty") [(str "a", str "x")]
      = match lookup? [(str "a", str "x")] (pyLower (str "a")) with
        | some text => !(stripWs text).isEmpty
        | none => false :=
  C4_condition_evaluator.2.2.2.1 (str "a") [(str "a", str "x")]
    (by decide) (by decide) (by decide) (by decide)

end HER
